import Mathlib

/-!
Verification of the sparse-matrix kernel of the aclswarm ADMM gain design code.

Part 1 embeds `insertionsort.cpp` (the two in-place insertion sorts
`b_insertionsort` and `insertionsort`).  The arrays are modelled as `List Int`
with explicit state passing; `xstart`/`xend` are the 1-based C `int` range
bounds, kept as `Int`.  The C `while` loop

    while ((idx >= xstart) && (xc < x->data[idx - 1])) { x->data[idx] = x->data[idx-1]; idx--; }
    x->data[idx] = xc;

is encoded by structural recursion on the fuel `(idx - xstart + 1).toNat`,
which is exactly the number of iterations still allowed by the guard
`idx >= xstart`: the guard holds iff the fuel is positive, and each iteration
decrements both `idx` and the fuel by one.

Part 2 models the CSC sparse-matrix layer.  The bodies of `sparse_vertcat`
(vertcat.h) and `CXSparseAPI_iteratedQR` (CXSparseAPI.h) are not part of the
sources (only their declarations are), so those two operations are modelled
from the specification; their doc comments say so explicitly.
-/

/-- Out-of-place read `x->data[i]` for an `Int` position, defaulting to 0;
positions of interest are always in bounds in the theorems below. -/
def getI (x : List Int) (i : Int) : Int := x.getD i.toNat 0

/-- The inner `while` loop shared by the two sorts of `insertionsort.cpp`,
with the comparison abstracted as `lt` (the plain sort compares the values
themselves, the keyed sort compares through the two key vectors).  Fuel
`n = (idx - xstart + 1).toNat` encodes the guard `idx >= xstart`. -/
def insertLoopAux (lt : Int → Int → Bool) (xc : Int) : Nat → Int → List Int → List Int
  | 0, idx, x => x.set idx.toNat xc
  | n + 1, idx, x =>
    if lt xc (getI x (idx - 1)) then
      insertLoopAux lt xc n (idx - 1) (x.set idx.toNat (getI x (idx - 1)))
    else x.set idx.toNat xc

/-- The inner loop entered at hole position `idx` (0-based), guard bound
`xstart` (1-based), as in the C code. -/
def insertLoop (lt : Int → Int → Bool) (xstart xc idx : Int) (x : List Int) : List Int :=
  insertLoopAux lt xc (idx - xstart + 1).toNat idx x

/-- The outer `for (k = xstart+1; k <= xend; k++)` loop, fuel
`(xend - k + 1).toNat`. -/
def sortLoopAux (lt : Int → Int → Bool) (xstart : Int) : Nat → Int → List Int → List Int
  | 0, _, x => x
  | n + 1, k, x =>
    sortLoopAux lt xstart n (k + 1) (insertLoop lt xstart (getI x (k - 1)) (k - 1) x)

/-- Generic in-place insertion sort of the 1-based range `x[xstart..xend]`
under the strict comparison `lt`; both functions of `insertionsort.cpp` are
instances of this.  Initial `k = xstart + 1`, fuel `(xend - xstart).toNat`. -/
def insertionsortBy (lt : Int → Int → Bool) (x : List Int) (xstart xend : Int) : List Int :=
  sortLoopAux lt xstart (xend - xstart).toNat (xstart + 1) x

/-- `b_insertionsort` from insertionsort.cpp: plain ascending insertion sort
of `x[xstart..xend]` by integer value. -/
def b_insertionsort (x : List Int) (xstart xend : Int) : List Int :=
  insertionsortBy (fun a b => decide (a < b)) x xstart xend

/-- The comparator of the keyed `insertionsort`: entries are 1-based indices
into `keyA`/`keyB`; primary key `keyA`, ties broken by `keyB`, both strict.
This is `varargout_1` of insertionsort.cpp with `a = xc + 1` and
`b = x->data[idx]`. -/
def lexLt (keyA keyB : List Int) (a b : Int) : Bool :=
  decide (getI keyA (a - 1) < getI keyA (b - 1)) ||
    (decide (getI keyA (a - 1) = getI keyA (b - 1)) &&
      decide (getI keyB (a - 1) < getI keyB (b - 1)))

/-- `insertionsort` from insertionsort.cpp: in-place insertion sort of
`x[xstart..xend]`, ordering the 1-based indices stored in `x` by
`keyA[x[i]-1]`, ties broken by `keyB[x[i]-1]`.  (The C code carries
`xc = x->data[k-1] - 1` and writes back `xc + 1`; here the value itself is
carried and the comparator subtracts 1, which is the same function.) -/
def insertionsort (x : List Int) (xstart xend : Int) (keyA keyB : List Int) : List Int :=
  insertionsortBy (lexLt keyA keyB) x xstart xend

/-- The 1-based range `x[xstart..xend]` as a list (0-based slice
`[xstart-1, xend-1]`). -/
def sliceOf (x : List Int) (xstart xend : Int) : List Int :=
  (x.drop (xstart - 1).toNat).take (xend.toNat - (xstart - 1).toNat)

/-- Reference form of one insertion step, acting on the reversed prefix: the
inner loop scans the sorted prefix from its right end, so on the reversed
prefix it walks past the elements `a` with `lt xc a` and stops at the first
`a` with `¬ lt xc a`. -/
def insertRev (lt : Int → Int → Bool) (xc : Int) : List Int → List Int
  | [] => [xc]
  | a :: l => if lt xc a then a :: insertRev lt xc l else xc :: a :: l

/-- One insertion step on the (unreversed) processed prefix. -/
def insStep (lt : Int → Int → Bool) (acc : List Int) (xc : Int) : List Int :=
  (insertRev lt xc acc.reverse).reverse

/-- Reference form of the whole sort: fold the insertion step over the
remaining elements, starting from the already processed prefix. -/
def foldIns (lt : Int → Int → Bool) : List Int → List Int → List Int
  | acc, [] => acc
  | acc, a :: l => foldIns lt (insStep lt acc a) l

/-- Reference insertion sort of a whole list. -/
def sortL (lt : Int → Int → Bool) (l : List Int) : List Int := foldIns lt [] l


/-! Option-instrumented version of the keyed sort, for the bounds-safety
claim: every memory access of `insertionsort` is performed through an
`Option`-returning read or write, so the whole call returns `none` as soon as
any access is out of bounds (a negative index counts as out of bounds).  The
key vectors are `const`-qualified in the C signature; the embedding passes
them through to the result unchanged. -/

/-- Checked read `x->data[i]`. -/
def getIOpt (x : List Int) (i : Int) : Option Int :=
  if 0 ≤ i then x[i.toNat]? else none

/-- Checked write `x->data[i] = v`. -/
def setIOpt (x : List Int) (i : Int) (v : Int) : Option (List Int) :=
  if 0 ≤ i ∧ i.toNat < x.length then some (x.set i.toNat v) else none

/-- The keyed comparison with all four key reads checked. -/
def lexLtOpt (keyA keyB : List Int) (a b : Int) : Option Bool :=
  match getIOpt keyA (a - 1), getIOpt keyA (b - 1),
      getIOpt keyB (a - 1), getIOpt keyB (b - 1) with
  | some ka, some ka', some kb, some kb' =>
    some (decide (ka < ka') || (decide (ka = ka') && decide (kb < kb')))
  | _, _, _, _ => none

/-- Checked inner loop of the keyed sort (same fuel encoding as
`insertLoopAux`). -/
def insertLoopOptAux (keyA keyB : List Int) (xc : Int) :
    Nat → Int → List Int → Option (List Int)
  | 0, idx, x => setIOpt x idx xc
  | n + 1, idx, x =>
    match getIOpt x (idx - 1) with
    | none => none
    | some a =>
      match lexLtOpt keyA keyB xc a with
      | none => none
      | some c =>
        if c then
          match setIOpt x idx a with
          | none => none
          | some x' => insertLoopOptAux keyA keyB xc n (idx - 1) x'
        else setIOpt x idx xc

/-- Checked outer loop of the keyed sort. -/
def sortLoopOptAux (keyA keyB : List Int) (xstart : Int) :
    Nat → Int → List Int → Option (List Int)
  | 0, _, x => some x
  | n + 1, k, x =>
    match getIOpt x (k - 1) with
    | none => none
    | some xc =>
      match insertLoopOptAux keyA keyB xc ((k - 1) - xstart + 1).toNat (k - 1) x with
      | none => none
      | some x' => sortLoopOptAux keyA keyB xstart n (k + 1) x'

/-- Checked keyed sort; on success it returns the three arrays the C function
can reach through its pointers: the sorted `x` and the two (never written,
`const`) key vectors. -/
def insertionsortOpt (x : List Int) (xstart xend : Int) (keyA keyB : List Int) :
    Option (List Int × List Int × List Int) :=
  match sortLoopOptAux keyA keyB xstart (xend - xstart).toNat (xstart + 1) x with
  | none => none
  | some x' => some (x', keyA, keyB)

/-- Validity of one entry of `x` as a 1-based index into both key vectors. -/
def ValidIdx (keyA keyB : List Int) (v : Int) : Prop :=
  1 ≤ v ∧ v.toNat ≤ keyA.length ∧ v.toNat ≤ keyB.length

instance (keyA keyB : List Int) (v : Int) : Decidable (ValidIdx keyA keyB v) := by
  unfold ValidIdx
  infer_instance

/-! The CSC sparse-matrix data model, from §3 of the specification. -/

/-- Error taxonomy of the kernel (§7 of the specification;
`NumericDegenerate` is absorbed internally and never surfaced). -/
inductive KernelError where
  | ShapeMismatch : KernelError
  | SingularSystem : KernelError
deriving DecidableEq

/-- Compressed sparse-column matrix: values, row indices and column pointers,
with `colPointer[j] .. colPointer[j+1]-1` delimiting column `j`. -/
structure SparseMatrix where
  values : List ℚ
  rowIndex : List Int
  colPointer : List Nat
  numRows : Nat
  numCols : Nat
deriving DecidableEq

/-- `colPointer[j]`. -/
def colStart (A : SparseMatrix) (j : Nat) : Nat := A.colPointer.getD j 0

/-- The row indices of column `j`. -/
def rowSlice (A : SparseMatrix) (j : Nat) : List Int :=
  (A.rowIndex.drop (colStart A j)).take (colStart A (j + 1) - colStart A j)

/-- The stored values of column `j`. -/
def valSlice (A : SparseMatrix) (j : Nat) : List ℚ :=
  (A.values.drop (colStart A j)).take (colStart A (j + 1) - colStart A j)

/-- Column `j` as a list of (row, value) pairs. -/
def colEntries (A : SparseMatrix) (j : Nat) : List (Int × ℚ) :=
  (rowSlice A j).zip (valSlice A j)

/-- Total non-zero count. -/
def nnz (A : SparseMatrix) : Nat := A.values.length

/-- Structural well-formedness of the CSC layout: pointer array of length
`numCols+1`, starting at 0, ending at `nnz`, monotone, with parallel
row-index and value arrays. -/
def SparseMatrix.WF (A : SparseMatrix) : Prop :=
  A.colPointer.length = A.numCols + 1 ∧
    colStart A 0 = 0 ∧
    colStart A A.numCols = A.values.length ∧
    A.rowIndex.length = A.values.length ∧
    ∀ j, j < A.numCols → colStart A j ≤ colStart A (j + 1)

/-- The column-internal ordering invariant: row indices of each column are
strictly increasing. -/
def strictCols (A : SparseMatrix) : Prop :=
  ∀ j, j < A.numCols → (rowSlice A j).Pairwise (fun a b => a < b)

/-- Row indices lie inside the matrix shape. -/
def inRange (A : SparseMatrix) : Prop :=
  ∀ j, j < A.numCols → ∀ r ∈ rowSlice A j, 0 ≤ r ∧ r < (A.numRows : Int)

instance (A : SparseMatrix) : Decidable (A.WF) := by
  unfold SparseMatrix.WF
  infer_instance

instance (A : SparseMatrix) : Decidable (strictCols A) := by
  unfold strictCols
  infer_instance

instance (A : SparseMatrix) : Decidable (inRange A) := by
  unfold inRange
  infer_instance

/-- Applying the plain sort to the row indices of column `j` (1-based range
`[colPointer j + 1, colPointer (j+1)]`). -/
def sortColumn (A : SparseMatrix) (j : Nat) : SparseMatrix :=
  { A with rowIndex :=
      b_insertionsort A.rowIndex ((colStart A j : Int) + 1) (colStart A (j + 1) : Int) }

/-- Applying the keyed sort to the row indices of column `j`. -/
def sortColumnByKeys (A : SparseMatrix) (j : Nat) (keyA keyB : List Int) : SparseMatrix :=
  { A with rowIndex :=
      insertionsort A.rowIndex ((colStart A j : Int) + 1) (colStart A (j + 1) : Int) keyA keyB }

/-- Column `j` of the concatenation: the top entries unchanged, the bottom row
indices shifted by `top.numRows`. -/
def vertcatColumn (top bottom : SparseMatrix) (j : Nat) : List (Int × ℚ) :=
  colEntries top j ++ (colEntries bottom j).map (fun p => (p.1 + (top.numRows : Int), p.2))

/-- Modelled from the spec: the body of `sparse_vertcat` (declared in
vertcat.h) is not among the sources, so vertical concatenation is modelled
from §4.1 of the specification: precondition `top.numCols = bottom.numCols`
(violation fails with `ShapeMismatch` at entry, before any work), result of
shape `(top.numRows + bottom.numRows) × top.numCols` whose column `j` is
the top column `j` followed by the bottom column `j` with row indices shifted by
`top.numRows`, and a fresh column pointer array accumulating the per-column
non-zero counts. -/
def vertcatResult (top bottom : SparseMatrix) : SparseMatrix :=
  { values := (((List.range top.numCols).map (vertcatColumn top bottom)).map
      (fun c => c.map Prod.snd)).flatten
    rowIndex := (((List.range top.numCols).map (vertcatColumn top bottom)).map
      (fun c => c.map Prod.fst)).flatten
    colPointer := (List.range (top.numCols + 1)).map
      (fun j => ((((List.range top.numCols).map (vertcatColumn top bottom)).take j).map
        List.length).sum)
    numRows := top.numRows + bottom.numRows
    numCols := top.numCols }

def sparse_vertcat (top bottom : SparseMatrix) : Except KernelError SparseMatrix :=
  if top.numCols = bottom.numCols then Except.ok (vertcatResult top bottom)
  else Except.error KernelError.ShapeMismatch

/-! Modelled from the spec: the body of `CXSparseAPI_iteratedQR` (declared in
CXSparseAPI.h) is not among the sources.  The factorization is modelled from
§4.3 of the specification over exact rationals: a column-oriented
orthogonalizing elimination that processes the columns in order, subtracts
from each column its projection onto the already accepted pivot columns, and
accepts the column as a new pivot exactly when the remainder is non-negligible
(with exact arithmetic the numerical tolerance is 0, i.e. the remainder is
non-zero).  Rank = number of accepted pivots; a rank of zero is the only
condition reported as `SingularSystem`, and a row-count mismatch between `A`
and `b` is reported as `ShapeMismatch` at entry, before any work. -/

/-- Dot product of two rational vectors. -/
def dotProd (u v : List ℚ) : ℚ := ((u.zip v).map (fun p => p.1 * p.2)).sum

/-- Scalar multiple. -/
def vecScale (c : ℚ) (u : List ℚ) : List ℚ := u.map (fun a => c * a)

/-- Component-wise difference. -/
def vecSub (u v : List ℚ) : List ℚ := (u.zip v).map (fun p => p.1 - p.2)

/-- Negligibility test of a pivot candidate (exact arithmetic: all zero). -/
def isZeroVec (v : List ℚ) : Bool := v.all (fun a => decide (a = 0))

/-- Column `j` of `A` as a dense vector of length `numRows`. -/
def colDense (A : SparseMatrix) (j : Nat) : List ℚ :=
  (List.range A.numRows).map (fun i : Nat =>
    (((colEntries A j).find? (fun p => decide (p.1 = (i : Int)))).map Prod.snd).getD 0)

/-- Remainder of `v` after eliminating the accepted pivot columns `U`. -/
def projResid (U : List (List ℚ)) (v : List ℚ) : List ℚ :=
  U.foldl (fun w u => vecSub w (vecScale (dotProd w u / dotProd u u) u)) v

/-- One elimination step: state is (accepted pivot columns, their original
column indices, the triangular-factor columns built so far). -/
def gsAccum (st : List (List ℚ) × List Nat × List (List ℚ)) (jv : Nat × List ℚ) :
    List (List ℚ) × List Nat × List (List ℚ) :=
  if isZeroVec (projResid st.1 jv.2) then st
  else
    (st.1 ++ [projResid st.1 jv.2], st.2.1 ++ [jv.1],
      st.2.2 ++ [st.1.map (fun u => dotProd jv.2 u / dotProd u u) ++ [1]])

/-- The elimination pass over all columns of `A`. -/
def gsRun (A : SparseMatrix) : List (List ℚ) × List Nat × List (List ℚ) :=
  ((List.range A.numCols).map (fun j => (j, colDense A j))).foldl gsAccum ([], [], [])

/-- Result of the factorization (§3 of the specification): rank, column
permutation, triangular factor, the pivot columns, and the projected
right-hand side ready for back-substitution. -/
structure QRResult where
  rank : Nat
  perm : List Nat
  Rfac : List (List ℚ)
  pivots : List (List ℚ)
  pb : List (List ℚ)

/-- Modelled from the spec: iterated sparse QR, see the section comment
above. -/
def CXSparseAPI_iteratedQR (A b : SparseMatrix) : Except KernelError QRResult :=
  if A.numRows ≠ b.numRows then Except.error KernelError.ShapeMismatch
  else
    let st := gsRun A
    if st.1.length = 0 then Except.error KernelError.SingularSystem
    else
      Except.ok
        { rank := st.1.length
          perm := st.2.1
          Rfac := st.2.2
          pivots := st.1
          pb := (List.range b.numCols).map
            (fun j => st.1.map (fun u => dotProd (colDense b j) u / dotProd u u)) }

/-- Component-wise sum. -/
def vecAdd (u v : List ℚ) : List ℚ := (u.zip v).map (fun p => p.1 + p.2)

/-- A list vector as a function `Nat → ℚ` (zero beyond its length), the bridge
into the rational vector space used to state linear independence and spans. -/
def toF (v : List ℚ) : Nat → ℚ := fun i => v.getD i 0

/-- Dot product of the first `m` coordinates of two function vectors. -/
def dotF (m : Nat) (f g : Nat → ℚ) : ℚ := ∑ i ∈ Finset.range m, f i * g i

/-- The matrix-vector product `A · x` formed from the dense columns of `A`. -/
def matVec (A : SparseMatrix) (x : List ℚ) : List ℚ :=
  ((List.range A.numCols).map (fun j => vecScale (x.getD j 0) (colDense A j))).foldr vecAdd
    (List.replicate A.numRows 0)

/-- Back-substitution through the column-stored triangular factor, solving the
rows from the bottom up: fuel counts the rows still to solve, `acc` holds the
already solved trailing entries. -/
def backSubAux (R : List (List ℚ)) (pb : List ℚ) : Nat → List ℚ → List ℚ
  | 0, acc => acc
  | k + 1, acc =>
    backSubAux R pb k
      (((pb.getD k 0 -
          (((R.drop (k + 1)).zip acc).map (fun p => p.1.getD k 0 * p.2)).sum) /
        (R.getD k []).getD k 0) :: acc)

/-- Back-substitution: solve `R y = pb` for the upper-triangular factor `R`
(stored by columns) from the last row upwards. -/
def backSub (R : List (List ℚ)) (pb : List ℚ) : List ℚ := backSubAux R pb R.length []

/-- `x` is a least-squares solution of `A x ≈ bc`: it has one entry per column
and its residual is orthogonal to every column of `A` (the normal equations);
for a full-rank square system this characterizes the exact solution. -/
def IsLSQSolution (A : SparseMatrix) (bc x : List ℚ) : Prop :=
  x.length = A.numCols ∧
    ∀ j, j < A.numCols →
      dotF A.numRows (toF (matVec A x) - toF bc) (toF (colDense A j)) = 0

/-- The vectors of a list, viewed as functions. -/
def toFSet (U : List (List ℚ)) : Set (Nat → ℚ) := {x | ∃ u ∈ U, toF u = x}

/-- Invariant of the elimination fold over the processed columns `P`: all
pivots have length `m`, are non-zero and pairwise orthogonal, every processed
column lies in the span of the pivots, and every pivot lies in the span of the
processed columns. -/
def GSInv (m : Nat) (P : List (List ℚ)) (st : List (List ℚ) × List Nat × List (List ℚ)) :
    Prop :=
  (∀ u ∈ st.1, u.length = m) ∧
    (∀ u ∈ st.1, isZeroVec u = false) ∧
    List.Pairwise (fun a b => dotProd b a = 0) st.1 ∧
    (∀ v ∈ P, toF v ∈ Submodule.span ℚ (toFSet st.1)) ∧
    (∀ u ∈ st.1, toF u ∈ Submodule.span ℚ (toFSet P))

/-- The elimination state after processing the first `k` columns of `A`. -/
def gsPrefix (A : SparseMatrix) (k : Nat) : List (List ℚ) × List Nat × List (List ℚ) :=
  ((List.range k).map (fun j => (j, colDense A j))).foldl gsAccum ([], [], [])

theorem take_set_of_le {α : Type _} (l : List α) :
    ∀ (i n : Nat) (v : α), n ≤ i → (l.set i v).take n = l.take n := by
  induction l with
  | nil => intro i n v _; simp
  | cons a l ih =>
    intro i n v hni
    cases i with
    | zero =>
      have : n = 0 := by omega
      subst this
      simp
    | succ i =>
      cases n with
      | zero => simp
      | succ n => simpa using ih i n v (by omega)

theorem getI_natCast (x : List Int) (h : Nat) : getI x (h : Int) = x.getD h 0 := by
  simp [getI]

theorem getI_natCast_sub_one (x : List Int) (h : Nat) (hh : 1 ≤ h) :
    getI x ((h : Int) - 1) = x.getD (h - 1) 0 := by
  have : ((h : Int) - 1).toNat = h - 1 := by omega
  simp [getI, this]

theorem drop_getD_cons (x : List Int) (h : Nat) (hlt : h < x.length) :
    x.drop h = x.getD h 0 :: x.drop (h + 1) := by
  rw [List.getD_eq_getElem x 0 hlt]
  exact List.drop_eq_getElem_cons hlt

/-- Closed form of the inner loop: entered with fuel `d`, hole position
`h = s + d` (0-based) and guard bound `xstart = s + 1` (1-based), it inserts
`xc` into the segment `x[s..h-1]`, scanning from the right and shifting the
elements that compare greater; the rest of the list is untouched. -/
theorem insertLoopAux_eq (lt : Int → Int → Bool) (xc : Int) (s : Nat) :
    ∀ (d h : Nat) (x : List Int), h = s + d → h < x.length →
      insertLoopAux lt xc d (h : Int) x =
        x.take s ++ (insertRev lt xc (((x.drop s).take d).reverse)).reverse ++
          x.drop (h + 1) := by
  intro d
  induction d with
  | zero =>
    intro h x hh hlen
    have hse : s = h := by omega
    subst hse
    have hs : ((s : Int)).toNat = s := by omega
    simp only [insertLoopAux, hs, List.take_zero, List.reverse_nil, insertRev,
      List.reverse_cons, List.reverse_nil, List.nil_append]
    rw [List.set_eq_take_cons_drop xc hlen]
    simp
  | succ d ih =>
    intro h x hh hlen
    have h1 : 1 ≤ h := by omega
    have hd : h - 1 = s + d := by omega
    have hsl : (x.drop s).take (d + 1) =
        (x.drop s).take d ++ [x.getD (h - 1) 0] := by
      rw [List.take_succ]
      have hget : (x.drop s)[d]? = some (x.getD (h - 1) 0) := by
        rw [List.getElem?_drop, show s + d = h - 1 from hd.symm,
          List.getElem?_eq_getElem (by omega : h - 1 < x.length),
          List.getD_eq_getElem x 0 (by omega : h - 1 < x.length)]
      rw [hget]
      rfl
    have hrev : (((x.drop s).take (d + 1)).reverse) =
        x.getD (h - 1) 0 :: ((x.drop s).take d).reverse := by
      rw [hsl, List.reverse_append]
      rfl
    simp only [insertLoopAux, getI_natCast_sub_one x h h1]
    by_cases hc : lt xc (x.getD (h - 1) 0) = true
    · rw [if_pos hc]
      have hcast : (h : Int) - 1 = ((h - 1 : Nat) : Int) := by omega
      have hidxt : ((h : Int)).toNat = h := by omega
      rw [hcast, hidxt]
      rw [ih (h - 1) (x.set h (x.getD (h - 1) 0)) hd
        (by rw [List.length_set]; omega)]
      have e1 : (x.set h (x.getD (h - 1) 0)).take s = x.take s :=
        take_set_of_le x h s _ (by omega)
      have e2 : ((x.set h (x.getD (h - 1) 0)).drop s).take d = (x.drop s).take d := by
        rw [List.drop_set]
        rw [if_neg (by omega)]
        exact take_set_of_le _ (h - s) d _ (by omega)
      have e3 : (x.set h (x.getD (h - 1) 0)).drop ((h - 1) + 1) =
          x.getD (h - 1) 0 :: x.drop (h + 1) := by
        have : (h - 1) + 1 = h := by omega
        rw [this, List.drop_set, if_neg (by omega)]
        rw [drop_getD_cons x h hlen]
        simp
      rw [e1, e2, e3, hrev]
      rw [insertRev]
      rw [if_pos hc]
      simp
    · rw [if_neg hc]
      have hidxt : ((h : Int)).toNat = h := by omega
      rw [hidxt, List.set_eq_take_cons_drop xc hlen]
      have : x.take h = x.take s ++ (x.drop s).take (d + 1) := by
        have : h = s + (d + 1) := hh
        rw [this, List.take_add]
      rw [this, hrev, insertRev, if_neg hc]
      have : (xc :: x.getD (h - 1) 0 :: ((x.drop s).take d).reverse).reverse =
          (x.drop s).take (d + 1) ++ [xc] := by
        have h2 : x.getD (h - 1) 0 :: ((x.drop s).take d).reverse =
            ((x.drop s).take (d + 1)).reverse := hrev.symm
        rw [show (xc :: x.getD (h - 1) 0 :: ((x.drop s).take d).reverse) =
            xc :: (x.getD (h - 1) 0 :: ((x.drop s).take d).reverse) from rfl, h2]
        simp
      rw [this]
      simp

theorem length_insertRev (lt : Int → Int → Bool) (xc : Int) :
    ∀ l : List Int, (insertRev lt xc l).length = l.length + 1 := by
  intro l
  induction l with
  | nil => rfl
  | cons a l ih =>
    rw [insertRev]
    by_cases hc : lt xc a = true
    · rw [if_pos hc]
      simp [ih]
    · rw [if_neg hc]
      simp

/-- Closed form of the outer loop: with fuel `f`, current index `k = c`
(1-based) and `c + f = xend + 1`, the processed prefix is `x[s..c-2]` and the
remaining elements `x[c-1..e-1]` are inserted one by one. -/
theorem sortLoopAux_eq (lt : Int → Int → Bool) (s e : Nat) :
    ∀ (f c : Nat) (x : List Int), s + 1 ≤ c → c + f = e + 1 → e ≤ x.length →
      sortLoopAux lt ((s : Int) + 1) f (c : Int) x =
        x.take s ++
          foldIns lt ((x.drop s).take (c - 1 - s)) ((x.drop (c - 1)).take (e - (c - 1))) ++
          x.drop e := by
  intro f
  induction f with
  | zero =>
    intro c x hc hce hlen
    have hce' : c = e + 1 := by omega
    subst hce'
    have hse : s ≤ e := by omega
    simp only [sortLoopAux]
    have h1 : e + 1 - 1 = e := by omega
    rw [h1]
    have h2 : (x.drop e).take (e - e) = ([] : List Int) := by simp
    rw [h2, foldIns]
    have h3 : (x.drop s).take (e - s) ++ x.drop e = x.drop s := by
      have : x.drop e = ((x.drop s)).drop (e - s) := by
        rw [List.drop_drop]
        congr 1
        omega
      rw [this, List.take_append_drop]
    rw [List.append_assoc, h3, List.take_append_drop]
  | succ f ih =>
    intro c x hc hce hlen
    have hc1 : 1 ≤ c := by omega
    have hce' : c ≤ e := by omega
    have hclen : c - 1 < x.length := by omega
    simp only [sortLoopAux]
    set xc := getI x ((c : Int) - 1) with hxc
    have hxc' : xc = x.getD (c - 1) 0 := getI_natCast_sub_one x c hc1
    -- unfold the inner loop via its closed form
    have hfuel : (((c : Int) - 1) - ((s : Int) + 1) + 1).toNat = (c - 1) - s := by omega
    have hidx : (c : Int) - 1 = ((c - 1 : Nat) : Int) := by omega
    have hinner : insertLoop lt ((s : Int) + 1) xc ((c : Int) - 1) x =
        x.take s ++
          (insertRev lt xc (((x.drop s).take (c - 1 - s)).reverse)).reverse ++
          x.drop c := by
      rw [insertLoop, hfuel, hidx,
        insertLoopAux_eq lt xc s ((c - 1) - s) (c - 1) x (by omega) hclen]
      have : (c - 1) + 1 = c := by omega
      rw [this]
    rw [hinner]
    set P := (x.drop s).take (c - 1 - s) with hP
    set Q := (insertRev lt xc P.reverse).reverse with hQ
    have hPlen : P.length = c - 1 - s := by
      rw [hP, List.length_take, List.length_drop]
      omega
    have hQlen : Q.length = c - s := by
      rw [hQ, List.length_reverse, length_insertRev, List.length_reverse, hPlen]
      omega
    have htake : (x.take s).length = s := by
      rw [List.length_take]
      omega
    have hlen2 : e ≤ (x.take s ++ Q ++ x.drop c).length := by
      rw [List.length_append, List.length_append, htake, hQlen, List.length_drop]
      omega
    have hcast1 : ((c : Int) + 1) = ((c + 1 : Nat) : Int) := by omega
    rw [hcast1, ih (c + 1) (x.take s ++ Q ++ x.drop c) (by omega) (by omega) hlen2]
    have e1 : (x.take s ++ Q ++ x.drop c).take s = x.take s := by
      rw [List.append_assoc, List.take_left' htake]
    have e2 : ((x.take s ++ Q ++ x.drop c).drop s).take (c + 1 - 1 - s) = Q := by
      rw [List.append_assoc, List.drop_left' htake]
      have : c + 1 - 1 - s = c - s := by omega
      rw [this, List.take_left' hQlen]
    have hfront : (x.take s ++ Q).length = c := by
      rw [List.length_append, htake, hQlen]
      omega
    have e3 : (x.take s ++ Q ++ x.drop c).drop (c + 1 - 1) = x.drop c := by
      have : c + 1 - 1 = c := by omega
      rw [this, List.drop_left' hfront]
    have e4 : (x.take s ++ Q ++ x.drop c).drop e = x.drop e := by
      have he : e = (x.take s ++ Q).length + (e - c) := by omega
      rw [he, List.drop_append, List.drop_drop]
      congr 1
      omega
    rw [e1, e2, e3, e4]
    -- identify the remaining-elements list on both sides
    have hR : (x.drop (c - 1)).take (e - (c - 1)) =
        xc :: (x.drop c).take (e - c) := by
      rw [drop_getD_cons x (c - 1) hclen, ← hxc']
      have h5 : e - (c - 1) = (e - c) + 1 := by omega
      rw [h5]
      have h6 : (c - 1) + 1 = c := by omega
      rw [List.take_succ_cons, h6]
    rw [hR, foldIns]
    rfl

/-- Closed form of a whole sort call: the 1-based range `[xstart, xend]` is
replaced by its reference insertion sort, everything else is untouched. -/
theorem insertionsortBy_eq (lt : Int → Int → Bool) (x : List Int) (xstart xend : Int)
    (h1 : 1 ≤ xstart) (h2 : xstart ≤ xend) (h3 : xend ≤ (x.length : Int)) :
    insertionsortBy lt x xstart xend =
      x.take (xstart - 1).toNat ++
        sortL lt ((x.drop (xstart - 1).toNat).take (xend.toNat - (xstart - 1).toNat)) ++
        x.drop xend.toNat := by
  set s := (xstart - 1).toNat with hs
  set e := xend.toNat with he
  have hxs : xstart = (s : Int) + 1 := by omega
  have hxe : xend = (e : Int) := by omega
  have hse : s + 1 ≤ e := by omega
  have hel : e ≤ x.length := by omega
  have hfuel : (xend - xstart).toNat = e - s - 1 := by omega
  have hk : xstart + 1 = ((s + 2 : Nat) : Int) := by omega
  rw [insertionsortBy, hfuel, hk, hxs]
  rw [sortLoopAux_eq lt s e (e - s - 1) (s + 2) x (by omega) (by omega) hel]
  have hslt : s < x.length := by omega
  have hhead : x.drop s = x.getD s 0 :: x.drop (s + 1) := drop_getD_cons x s hslt
  have hP : (x.drop s).take (s + 2 - 1 - s) = [x.getD s 0] := by
    rw [hhead]
    have : s + 2 - 1 - s = 1 := by omega
    rw [this]
    rfl
  have hR : (x.drop (s + 2 - 1)).take (e - (s + 2 - 1)) = (x.drop (s + 1)).take (e - s - 1) := by
    have h4 : s + 2 - 1 = s + 1 := by omega
    rw [h4]
    congr 1
  have hslice : (x.drop s).take (e - s) = x.getD s 0 :: (x.drop (s + 1)).take (e - s - 1) := by
    rw [hhead]
    rw [show e - s = (e - s - 1) + 1 by omega, List.take_succ_cons]
    simp only [Nat.add_sub_cancel]
  rw [hP, hR, hslice, sortL, foldIns]
  rfl

/-- The two hypotheses on the strict comparison that the ordering and
stability proofs need: asymmetry, and `lt p q → ¬ lt r q → lt p r` (the
strict-weak-order transfer property).  Both instantiations, `<` on `Int` and
the two-key lexicographic comparison, satisfy them. -/
def LtOk (lt : Int → Int → Bool) : Prop :=
  (∀ a b, lt a b = true → lt b a = false) ∧
    (∀ p q r, lt p q = true → lt r q = false → lt p r = true)

theorem ltInt_ok : LtOk (fun a b => decide (a < b)) := by
  constructor
  · intro a b h
    simp only [decide_eq_true_eq] at h
    simp only [decide_eq_false_iff_not]
    omega
  · intro p q r h1 h2
    simp only [decide_eq_true_eq] at h1 ⊢
    simp only [decide_eq_false_iff_not] at h2
    omega

theorem lexLt_ok (keyA keyB : List Int) : LtOk (lexLt keyA keyB) := by
  constructor
  · intro a b h
    simp only [lexLt, Bool.or_eq_true, Bool.and_eq_true, decide_eq_true_eq] at h
    simp only [lexLt, Bool.or_eq_false_iff, Bool.and_eq_false_iff,
      decide_eq_false_iff_not]
    constructor
    · omega
    · by_cases hA : getI keyA (b - 1) = getI keyA (a - 1)
      · right; omega
      · left; exact hA
  · intro p q r h1 h2
    simp only [lexLt, Bool.or_eq_true, Bool.and_eq_true, decide_eq_true_eq] at h1
    simp only [lexLt, Bool.or_eq_false_iff, Bool.and_eq_false_iff,
      decide_eq_false_iff_not] at h2
    simp only [lexLt, Bool.or_eq_true, Bool.and_eq_true, decide_eq_true_eq]
    rcases h2 with ⟨h2a, h2b⟩
    rcases h2b with h2b | h2b
    · rcases h1 with h1 | ⟨h1a, h1b⟩
      · omega
      · left; omega
    · rcases h1 with h1 | ⟨h1a, h1b⟩
      · omega
      · by_cases hpr : getI keyA (p - 1) = getI keyA (r - 1)
        · right; exact ⟨hpr, by omega⟩
        · left; omega

theorem insertRev_perm (lt : Int → Int → Bool) (xc : Int) :
    ∀ l : List Int, (insertRev lt xc l).Perm (xc :: l) := by
  intro l
  induction l with
  | nil => rfl
  | cons a l ih =>
    rw [insertRev]
    by_cases hc : lt xc a = true
    · rw [if_pos hc]
      exact ((ih.cons a).trans (List.Perm.swap xc a l))
    · rw [if_neg hc]

theorem insStep_perm (lt : Int → Int → Bool) (acc : List Int) (xc : Int) :
    (insStep lt acc xc).Perm (acc ++ [xc]) := by
  rw [insStep]
  refine (List.reverse_perm _).trans ?_
  refine ((insertRev_perm lt xc acc.reverse).trans ?_)
  refine (List.Perm.cons xc (List.reverse_perm acc)).trans ?_
  exact @List.perm_append_comm _ [xc] acc

theorem foldIns_perm (lt : Int → Int → Bool) :
    ∀ (l acc : List Int), (foldIns lt acc l).Perm (acc ++ l) := by
  intro l
  induction l with
  | nil => intro acc; simp [foldIns]
  | cons a l ih =>
    intro acc
    rw [foldIns]
    refine (ih (insStep lt acc a)).trans ?_
    have h1 : (insStep lt acc a ++ l).Perm ((acc ++ [a]) ++ l) :=
      (insStep_perm lt acc a).append_right l
    refine h1.trans ?_
    rw [List.append_assoc]
    rfl

theorem sortL_perm (lt : Int → Int → Bool) (l : List Int) : (sortL lt l).Perm l := by
  simpa using foldIns_perm lt l []

/-- Structure of one reversed insertion: the scanned elements (all comparing
greater than `xc`) are passed, `xc` lands before the first element that does
not. -/
theorem insertRev_split (lt : Int → Int → Bool) (xc : Int) :
    ∀ r : List Int, ∃ B A, insertRev lt xc r = B ++ xc :: A ∧ r = B ++ A ∧
      (∀ b ∈ B, lt xc b = true) ∧
      (A = [] ∨ ∃ a0 A', A = a0 :: A' ∧ lt xc a0 = false) := by
  intro r
  induction r with
  | nil => exact ⟨[], [], rfl, rfl, by simp, Or.inl rfl⟩
  | cons a r ih =>
    by_cases hc : lt xc a = true
    · obtain ⟨B, A, h1, h2, h3, h4⟩ := ih
      refine ⟨a :: B, A, ?_, ?_, ?_, h4⟩
      · rw [insertRev, if_pos hc, h1]
        rfl
      · rw [List.cons_append, h2]
      · intro b hb
        rcases List.mem_cons.mp hb with hb | hb
        · rwa [hb]
        · exact h3 b hb
    · refine ⟨[], a :: r, ?_, rfl, by simp, Or.inr ⟨a, r, rfl, by simpa using hc⟩⟩
      rw [insertRev, if_neg hc]
      rfl

/-- Structure of one insertion step on the unreversed prefix. -/
theorem insStep_split (lt : Int → Int → Bool) (acc : List Int) (xc : Int) :
    ∃ A B, insStep lt acc xc = A ++ xc :: B ∧ acc = A ++ B ∧
      (∀ b ∈ B, lt xc b = true) ∧
      (A = [] ∨ ∃ a0 A', A = A' ++ [a0] ∧ lt xc a0 = false) := by
  obtain ⟨B0, A0, h1, h2, h3, h4⟩ := insertRev_split lt xc acc.reverse
  refine ⟨A0.reverse, B0.reverse, ?_, ?_, ?_, ?_⟩
  · rw [insStep, h1]
    simp
  · have : acc.reverse.reverse = (B0 ++ A0).reverse := by rw [h2]
    simpa using this
  · intro b hb
    exact h3 b (List.mem_reverse.mp hb)
  · rcases h4 with h4 | ⟨a0, A', hA, ha0⟩
    · left; rw [h4]; rfl
    · right
      exact ⟨a0, A'.reverse, by rw [hA]; simp, ha0⟩

/-- Ascending order with respect to the strict comparison `lt`: no later
element compares strictly below an earlier one. -/
def SortedBy (lt : Int → Int → Bool) (l : List Int) : Prop :=
  l.Pairwise (fun a b => lt b a = false)

theorem insStep_sorted (lt : Int → Int → Bool) (hlt : LtOk lt) (acc : List Int) (xc : Int)
    (hs : SortedBy lt acc) : SortedBy lt (insStep lt acc xc) := by
  obtain ⟨A, B, h1, h2, h3, h4⟩ := insStep_split lt acc xc
  rw [SortedBy] at hs
  rw [h2, List.pairwise_append] at hs
  obtain ⟨hA, hB, hAB⟩ := hs
  rw [SortedBy, h1, List.pairwise_append]
  refine ⟨hA, ?_, ?_⟩
  · rw [List.pairwise_cons]
    refine ⟨fun b hb => hlt.1 xc b (h3 b hb), hB⟩
  · intro a ha b hb
    rcases List.mem_cons.mp hb with hb | hb
    · rw [hb]
      rcases h4 with h4 | ⟨a0, A', hA', ha0⟩
      · rw [h4] at ha
        simp at ha
      · rw [hA'] at ha hA
        rcases List.mem_append.mp ha with ha' | ha'
        · by_contra hcon
          rw [Bool.not_eq_false] at hcon
          have hle : lt a0 a = false := by
            rw [List.pairwise_append] at hA
            exact hA.2.2 a ha' a0 (List.mem_singleton.mpr rfl)
          have hxa := hlt.2 xc a a0 hcon hle
          rw [ha0] at hxa
          exact Bool.false_ne_true hxa
        · rw [List.mem_singleton.mp ha']
          exact ha0
    · exact hAB a ha b hb

theorem foldIns_sorted (lt : Int → Int → Bool) (hlt : LtOk lt) :
    ∀ (l acc : List Int), SortedBy lt acc → SortedBy lt (foldIns lt acc l) := by
  intro l
  induction l with
  | nil => intro acc h; exact h
  | cons a l ih =>
    intro acc h
    rw [foldIns]
    exact ih (insStep lt acc a) (insStep_sorted lt hlt acc a h)

theorem sortL_sorted (lt : Int → Int → Bool) (hlt : LtOk lt) (l : List Int) :
    SortedBy lt (sortL lt l) :=
  foldIns_sorted lt hlt l [] List.Pairwise.nil

/-- Comparator-equivalence with `v` (both comparisons false), as a Boolean
predicate: for the plain sort this is equality with `v`, for the keyed sort
it is equality of both key entries. -/
def eqvB (lt : Int → Int → Bool) (v c : Int) : Bool := !(lt c v) && !(lt v c)

theorem insStep_filter_of_neg (lt : Int → Int → Bool) (acc : List Int) (xc : Int)
    (p : Int → Bool) (hp : p xc = false) :
    (insStep lt acc xc).filter p = acc.filter p := by
  obtain ⟨A, B, h1, h2, _, _⟩ := insStep_split lt acc xc
  rw [h1, h2, List.filter_append, List.filter_append, List.filter_cons, hp]
  simp

theorem insStep_filter_of_pos (lt : Int → Int → Bool) (acc : List Int) (xc : Int)
    (p : Int → Bool) (hp : p xc = true) (hb : ∀ b, lt xc b = true → p b = false) :
    (insStep lt acc xc).filter p = acc.filter p ++ [xc] := by
  obtain ⟨A, B, h1, h2, h3, _⟩ := insStep_split lt acc xc
  have hBnil : B.filter p = [] := by
    rw [List.filter_eq_nil_iff]
    intro b hbB
    rw [hb b (h3 b hbB)]
    simp
  rw [h1, h2, List.filter_append, List.filter_append, List.filter_cons, hp, hBnil]
  simp

theorem foldIns_filter (lt : Int → Int → Bool) (hlt : LtOk lt) (v : Int) :
    ∀ (l acc : List Int),
      (foldIns lt acc l).filter (eqvB lt v) =
        acc.filter (eqvB lt v) ++ l.filter (eqvB lt v) := by
  intro l
  induction l with
  | nil => intro acc; simp [foldIns]
  | cons a l ih =>
    intro acc
    rw [foldIns, ih, List.filter_cons]
    by_cases hpa : eqvB lt v a = true
    · rw [if_pos hpa]
      have hb : ∀ b, lt a b = true → eqvB lt v b = false := by
        intro b hab
        by_contra hcon
        rw [Bool.not_eq_false, eqvB, Bool.and_eq_true, Bool.not_eq_true',
          Bool.not_eq_true'] at hcon
        rw [eqvB, Bool.and_eq_true, Bool.not_eq_true', Bool.not_eq_true'] at hpa
        have hav := hlt.2 a b v hab hcon.2
        rw [hpa.1] at hav
        exact Bool.false_ne_true hav
      rw [insStep_filter_of_pos lt acc a (eqvB lt v) hpa hb]
      simp
    · rw [if_neg hpa]
      rw [insStep_filter_of_neg lt acc a (eqvB lt v) (Bool.not_eq_true _ ▸ Bool.of_not_eq_true hpa)]

theorem sortL_filter (lt : Int → Int → Bool) (hlt : LtOk lt) (v : Int) (l : List Int) :
    (sortL lt l).filter (eqvB lt v) = l.filter (eqvB lt v) := by
  rw [sortL, foldIns_filter lt hlt v l []]
  rfl

theorem insStep_of_no_shift (lt : Int → Int → Bool) (acc : List Int) (xc : Int)
    (h : ∀ b ∈ acc, lt xc b = false) : insStep lt acc xc = acc ++ [xc] := by
  rcases hrev : acc.reverse with _ | ⟨b, r⟩
  · have : acc = [] := List.reverse_eq_nil_iff.mp hrev
    subst this
    rfl
  · have hbacc : b ∈ acc := by
      rw [← List.mem_reverse, hrev]
      exact List.mem_cons_self b r
    rw [insStep, hrev, insertRev, if_neg (by rw [h b hbacc]; simp)]
    simp only [List.reverse_cons]
    have hacc : r.reverse ++ [b] = acc := by
      rw [← List.reverse_cons, ← hrev, List.reverse_reverse]
    rw [hacc]

theorem foldIns_of_sorted (lt : Int → Int → Bool) :
    ∀ (l acc : List Int), List.Pairwise (fun a b => lt b a = false) (acc ++ l) →
      foldIns lt acc l = acc ++ l := by
  intro l
  induction l with
  | nil => intro acc _; simp [foldIns]
  | cons a l ih =>
    intro acc h
    have hle : ∀ b ∈ acc, lt a b = false := by
      intro b hb
      rw [List.pairwise_append] at h
      exact h.2.2 b hb a (List.mem_cons_self a l)
    rw [foldIns, insStep_of_no_shift lt acc a hle, ih (acc ++ [a])]
    · rw [List.append_assoc]
      rfl
    · rw [List.append_assoc]
      simpa using h

theorem sortL_of_sorted (lt : Int → Int → Bool) (l : List Int)
    (h : SortedBy lt l) : sortL lt l = l := by
  rw [sortL]
  exact (foldIns_of_sorted lt l [] (by simpa using h)).trans (List.nil_append l)

/-- The sorted range of a sort call is the reference sort of the original
range. -/
theorem sliceOf_insertionsortBy (lt : Int → Int → Bool) (x : List Int) (xstart xend : Int)
    (h1 : 1 ≤ xstart) (h2 : xstart ≤ xend) (h3 : xend ≤ (x.length : Int)) :
    sliceOf (insertionsortBy lt x xstart xend) xstart xend =
      sortL lt (sliceOf x xstart xend) := by
  set s := (xstart - 1).toNat with hs
  set e := xend.toNat with he
  rw [insertionsortBy_eq lt x xstart xend h1 h2 h3, sliceOf]
  have htl : (x.take s).length = s := by
    rw [List.length_take]
    omega
  rw [List.append_assoc, List.drop_left' htl]
  have hlen : (sortL lt ((x.drop s).take (e - s))).length = e - s := by
    rw [(sortL_perm lt _).length_eq, List.length_take, List.length_drop]
    omega
  rw [List.take_left' hlen, sliceOf]

/-- Everything outside the sorted range is untouched, and the whole result is
the prefix, the sorted range and the suffix. -/
theorem insertionsortBy_decomp (lt : Int → Int → Bool) (x : List Int) (xstart xend : Int)
    (h1 : 1 ≤ xstart) (h2 : xstart ≤ xend) (h3 : xend ≤ (x.length : Int)) :
    insertionsortBy lt x xstart xend =
      x.take (xstart - 1).toNat ++ sortL lt (sliceOf x xstart xend) ++ x.drop xend.toNat :=
  insertionsortBy_eq lt x xstart xend h1 h2 h3

theorem eqvB_ltInt (v c : Int) :
    eqvB (fun a b => decide (a < b)) v c = decide (c = v) := by
  rw [Bool.eq_iff_iff]
  simp only [eqvB, Bool.and_eq_true, Bool.not_eq_true', decide_eq_false_iff_not,
    decide_eq_true_eq]
  omega

theorem eqvB_lexLt (keyA keyB : List Int) (v c : Int) :
    eqvB (lexLt keyA keyB) v c =
      (decide (getI keyA (c - 1) = getI keyA (v - 1)) &&
        decide (getI keyB (c - 1) = getI keyB (v - 1))) := by
  rw [Bool.eq_iff_iff]
  simp only [eqvB, lexLt, Bool.and_eq_true, Bool.not_eq_true', Bool.or_eq_false_iff,
    Bool.and_eq_false_iff, decide_eq_false_iff_not, decide_eq_true_eq]
  constructor
  · intro ⟨⟨hca, hc⟩, ⟨hvc, hv⟩⟩
    constructor
    · omega
    · rcases hc with hc | hc <;> rcases hv with hv | hv <;> omega
  · intro ⟨hA, hB⟩
    exact ⟨⟨by omega, Or.inr (by omega)⟩, ⟨by omega, Or.inr (by omega)⟩⟩

/-- Claim C1: for every integer array `x` and every in-bounds 1-based range
`xstart ≤ xend`, after `b_insertionsort` the range `x[xstart..xend]` is in
ascending order and is a permutation (same multiset) of the original range. -/
theorem b_insertionsort_sorts (x : List Int) (xstart xend : Int)
    (h1 : 1 ≤ xstart) (h2 : xstart ≤ xend) (h3 : xend ≤ (x.length : Int)) :
    (sliceOf (b_insertionsort x xstart xend) xstart xend).Pairwise (fun a b => a ≤ b) ∧
      (sliceOf (b_insertionsort x xstart xend) xstart xend).Perm (sliceOf x xstart xend) := by
  rw [b_insertionsort, sliceOf_insertionsortBy _ x xstart xend h1 h2 h3]
  constructor
  · refine List.Pairwise.imp ?_ (sortL_sorted _ ltInt_ok (sliceOf x xstart xend))
    intro a b hab
    simp only [decide_eq_false_iff_not] at hab
    omega
  · exact sortL_perm _ (sliceOf x xstart xend)

theorem b_insertionsort_sorts_witness :
    (sliceOf (b_insertionsort [3, 1, 2, 2] 1 4) 1 4).Pairwise (fun a b => a ≤ b) ∧
      (sliceOf (b_insertionsort [3, 1, 2, 2] 1 4) 1 4).Perm (sliceOf [3, 1, 2, 2] 1 4) :=
  b_insertionsort_sorts [3, 1, 2, 2] 1 4 (by decide) (by decide) (by decide)

/-- Claim C2: after the keyed `insertionsort`, any earlier entry `a` and
later entry `b` of the sorted range satisfy `keyA[a-1] < keyA[b-1]`, or
`keyA[a-1] = keyA[b-1]` and `keyB[a-1] ≤ keyB[b-1]`; the entries of the
range are 1-based indices into the two key vectors. -/
theorem insertionsort_sorted_by_keys (x : List Int) (xstart xend : Int)
    (keyA keyB : List Int)
    (h1 : 1 ≤ xstart) (h2 : xstart ≤ xend) (h3 : xend ≤ (x.length : Int))
    (_hvalid : ∀ v ∈ sliceOf x xstart xend, ValidIdx keyA keyB v) :
    (sliceOf (insertionsort x xstart xend keyA keyB) xstart xend).Pairwise
      (fun a b => getI keyA (a - 1) < getI keyA (b - 1) ∨
        (getI keyA (a - 1) = getI keyA (b - 1) ∧ getI keyB (a - 1) ≤ getI keyB (b - 1))) := by
  rw [insertionsort, sliceOf_insertionsortBy _ x xstart xend h1 h2 h3]
  refine List.Pairwise.imp ?_ (sortL_sorted _ (lexLt_ok keyA keyB) (sliceOf x xstart xend))
  intro a b hab
  simp only [lexLt, Bool.or_eq_false_iff, Bool.and_eq_false_iff,
    decide_eq_false_iff_not] at hab
  rcases hab with ⟨hA, hB⟩
  rcases hB with hB | hB
  · left
    omega
  · by_cases hEq : getI keyA (a - 1) = getI keyA (b - 1)
    · right
      exact ⟨hEq, by omega⟩
    · left
      omega

theorem insertionsort_sorted_by_keys_witness :
    (sliceOf (insertionsort [1, 3, 2] 1 3 [7, 5, 5] [0, 2, 1]) 1 3).Pairwise
      (fun a b => getI [7, 5, 5] (a - 1) < getI [7, 5, 5] (b - 1) ∨
        (getI [7, 5, 5] (a - 1) = getI [7, 5, 5] (b - 1) ∧
          getI [0, 2, 1] (a - 1) ≤ getI [0, 2, 1] (b - 1))) :=
  insertionsort_sorted_by_keys [1, 3, 2] 1 3 [7, 5, 5] [0, 2, 1]
    (by decide) (by decide) (by decide) (by decide)

/-- Claim C3: both sorts are stable: the subsequence of range elements that
compare equal under the respective comparator (equal value for the plain
sort; equal `keyA` and `keyB` entries for the keyed sort) is the same before
and after sorting. -/
theorem insertion_sorts_stable (x : List Int) (xstart xend : Int)
    (h1 : 1 ≤ xstart) (h2 : xstart ≤ xend) (h3 : xend ≤ (x.length : Int)) :
    (∀ v : Int,
      (sliceOf (b_insertionsort x xstart xend) xstart xend).filter (fun c => decide (c = v)) =
        (sliceOf x xstart xend).filter (fun c => decide (c = v))) ∧
    (∀ keyA keyB : List Int, ∀ v : Int,
      (sliceOf (insertionsort x xstart xend keyA keyB) xstart xend).filter
          (fun c => decide (getI keyA (c - 1) = getI keyA (v - 1)) &&
            decide (getI keyB (c - 1) = getI keyB (v - 1))) =
        (sliceOf x xstart xend).filter
          (fun c => decide (getI keyA (c - 1) = getI keyA (v - 1)) &&
            decide (getI keyB (c - 1) = getI keyB (v - 1)))) := by
  constructor
  · intro v
    rw [b_insertionsort, sliceOf_insertionsortBy _ x xstart xend h1 h2 h3]
    have hf : (fun c => decide (c = v)) = eqvB (fun a b => decide (a < b)) v := by
      funext c
      rw [eqvB_ltInt]
    rw [hf]
    exact sortL_filter _ ltInt_ok v (sliceOf x xstart xend)
  · intro keyA keyB v
    rw [insertionsort, sliceOf_insertionsortBy _ x xstart xend h1 h2 h3]
    have hf : (fun c => decide (getI keyA (c - 1) = getI keyA (v - 1)) &&
        decide (getI keyB (c - 1) = getI keyB (v - 1))) = eqvB (lexLt keyA keyB) v := by
      funext c
      rw [eqvB_lexLt]
    rw [hf]
    exact sortL_filter _ (lexLt_ok keyA keyB) v (sliceOf x xstart xend)

theorem insertion_sorts_stable_witness :
    (∀ v : Int,
      (sliceOf (b_insertionsort [2, 1, 2] 1 3) 1 3).filter (fun c => decide (c = v)) =
        (sliceOf [2, 1, 2] 1 3).filter (fun c => decide (c = v))) ∧
    (∀ keyA keyB : List Int, ∀ v : Int,
      (sliceOf (insertionsort [2, 1, 2] 1 3 keyA keyB) 1 3).filter
          (fun c => decide (getI keyA (c - 1) = getI keyA (v - 1)) &&
            decide (getI keyB (c - 1) = getI keyB (v - 1))) =
        (sliceOf [2, 1, 2] 1 3).filter
          (fun c => decide (getI keyA (c - 1) = getI keyA (v - 1)) &&
            decide (getI keyB (c - 1) = getI keyB (v - 1)))) :=
  insertion_sorts_stable [2, 1, 2] 1 3 (by decide) (by decide) (by decide)

theorem b_insertionsort_fixed_of_sorted (x : List Int) (xstart xend : Int)
    (h1 : 1 ≤ xstart) (h2 : xstart ≤ xend) (h3 : xend ≤ (x.length : Int))
    (hsorted : (sliceOf x xstart xend).Pairwise (fun a b => a ≤ b)) :
    b_insertionsort x xstart xend = x := by
  rw [b_insertionsort, insertionsortBy_eq _ x xstart xend h1 h2 h3]
  have hsb : SortedBy (fun a b => decide (a < b)) (sliceOf x xstart xend) := by
    refine List.Pairwise.imp ?_ hsorted
    intro a b hab
    simp only [decide_eq_false_iff_not]
    omega
  rw [show (x.drop (xstart - 1).toNat).take (xend.toNat - (xstart - 1).toNat) =
    sliceOf x xstart xend from rfl]
  rw [sortL_of_sorted _ _ hsb]
  set s := (xstart - 1).toNat with hs
  set e := xend.toNat with he
  rw [sliceOf]
  have h4 : (x.drop s).take (e - s) ++ x.drop e = x.drop s := by
    have h5 : x.drop e = (x.drop s).drop (e - s) := by
      rw [List.drop_drop]
      congr 1
      omega
    rw [h5, List.take_append_drop]
  rw [List.append_assoc, h4, List.take_append_drop]

/-- Claim C4: `b_insertionsort` is idempotent: if `x[xstart..xend]` is
already ascending, the call leaves the entire array unchanged. -/
theorem b_insertionsort_idempotent (x : List Int) (xstart xend : Int)
    (h1 : 1 ≤ xstart) (h2 : xstart ≤ xend) (h3 : xend ≤ (x.length : Int))
    (hsorted : (sliceOf x xstart xend).Pairwise (fun a b => a ≤ b)) :
    b_insertionsort x xstart xend = x :=
  b_insertionsort_fixed_of_sorted x xstart xend h1 h2 h3 hsorted

theorem b_insertionsort_idempotent_witness : b_insertionsort [5, 1, 2, 2, 9] 2 4 = [5, 1, 2, 2, 9] :=
  b_insertionsort_idempotent [5, 1, 2, 2, 9] 2 4 (by decide) (by decide) (by decide) (by decide)

theorem getD_mem_slice (x : List Int) (s e i : Nat) (hsi : s ≤ i) (hie : i < e)
    (hel : e ≤ x.length) : x.getD i 0 ∈ (x.drop s).take (e - s) := by
  have hb : i - s < ((x.drop s).take (e - s)).length := by
    rw [List.length_take, List.length_drop]
    omega
  have hsome : ((x.drop s).take (e - s))[i - s]? = some (x.getD i 0) := by
    rw [List.getElem?_take, if_pos (by omega), List.getElem?_drop,
      show s + (i - s) = i by omega, List.getElem?_eq_getElem (by omega : i < x.length),
      List.getD_eq_getElem x 0 (by omega)]
  rw [List.getElem?_eq_getElem hb] at hsome
  rw [← Option.some.inj hsome]
  exact List.getElem_mem hb

theorem getIOpt_of_lt (x : List Int) (i : Int) (h0 : 0 ≤ i) (hl : i.toNat < x.length) :
    getIOpt x i = some (getI x i) := by
  rw [getIOpt, if_pos h0, List.getElem?_eq_getElem hl, getI,
    List.getD_eq_getElem x 0 hl]

theorem setIOpt_of_lt (x : List Int) (i : Int) (v : Int) (h0 : 0 ≤ i)
    (hl : i.toNat < x.length) : setIOpt x i v = some (x.set i.toNat v) := by
  rw [setIOpt, if_pos ⟨h0, hl⟩]

theorem lexLtOpt_eq (keyA keyB : List Int) (a b : Int)
    (ha : ValidIdx keyA keyB a) (hb : ValidIdx keyA keyB b) :
    lexLtOpt keyA keyB a b = some (lexLt keyA keyB a b) := by
  obtain ⟨ha1, ha2, ha3⟩ := ha
  obtain ⟨hb1, hb2, hb3⟩ := hb
  rw [lexLtOpt,
    getIOpt_of_lt keyA (a - 1) (by omega) (by omega),
    getIOpt_of_lt keyA (b - 1) (by omega) (by omega),
    getIOpt_of_lt keyB (a - 1) (by omega) (by omega),
    getIOpt_of_lt keyB (b - 1) (by omega) (by omega)]
  rfl

/-- Under the validity precondition, every access of the checked inner loop
is in bounds and it computes exactly what the unchecked loop computes. -/
theorem insertLoopOptAux_eq (keyA keyB : List Int) (xc : Int) (s : Nat) :
    ∀ (d h : Nat) (x : List Int), h = s + d → h < x.length →
      (∀ v ∈ (x.drop s).take d, ValidIdx keyA keyB v) → ValidIdx keyA keyB xc →
      insertLoopOptAux keyA keyB xc d (h : Int) x =
        some (insertLoopAux (lexLt keyA keyB) xc d (h : Int) x) := by
  intro d
  induction d with
  | zero =>
    intro h x hh hlen _ _
    rw [insertLoopOptAux, insertLoopAux,
      setIOpt_of_lt x (h : Int) xc (by omega) (by omega)]
  | succ d ih =>
    intro h x hh hlen hval hxc
    have h1 : 1 ≤ h := by omega
    have hread : getIOpt x ((h : Int) - 1) = some (getI x ((h : Int) - 1)) :=
      getIOpt_of_lt x ((h : Int) - 1) (by omega) (by omega)
    have hmem : getI x ((h : Int) - 1) ∈ (x.drop s).take (d + 1) := by
      rw [getI_natCast_sub_one x h h1]
      have hm := getD_mem_slice x s (s + d + 1) (h - 1) (by omega) (by omega) (by omega)
      rw [show s + d + 1 - s = d + 1 by omega] at hm
      exact hm
    have hvala : ValidIdx keyA keyB (getI x ((h : Int) - 1)) := hval _ hmem
    simp only [insertLoopOptAux, insertLoopAux, hread,
      lexLtOpt_eq keyA keyB xc (getI x ((h : Int) - 1)) hxc hvala]
    by_cases hc : lexLt keyA keyB xc (getI x ((h : Int) - 1)) = true
    · simp only [hc, if_true,
        setIOpt_of_lt x (h : Int) (getI x ((h : Int) - 1)) (by omega) (by omega)]
      have hcast : (h : Int) - 1 = ((h - 1 : Nat) : Int) := by omega
      have hrec := ih (h - 1) (x.set (h : Int).toNat (getI x ((h : Int) - 1))) (by omega)
        (by rw [List.length_set]; omega)
        (by
          intro v hv
          refine hval v ?_
          have hidxt : ((h : Int)).toNat = h := by omega
          rw [hidxt] at hv
          rw [List.drop_set, if_neg (by omega),
            take_set_of_le _ (h - s) d _ (by omega)] at hv
          have hsub : (x.drop s).take d ⊆ (x.drop s).take (d + 1) := by
            rw [show (x.drop s).take d = ((x.drop s).take (d + 1)).take d by
              rw [List.take_take]
              congr 1
              omega]
            exact List.take_subset _ _
          exact hsub hv)
        hxc
      rw [← hcast] at hrec
      exact hrec
    · simp only [Bool.not_eq_true] at hc
      rw [hc, if_neg Bool.false_ne_true,
        setIOpt_of_lt x (h : Int) xc (by omega) (by omega),
        if_neg Bool.false_ne_true]

/-- Under the validity precondition, every access of the checked outer loop
is in bounds and it computes exactly what the unchecked loop computes. -/
theorem sortLoopOptAux_eq (keyA keyB : List Int) (s e : Nat) :
    ∀ (f c : Nat) (x : List Int), s + 1 ≤ c → c + f = e + 1 → e ≤ x.length →
      (∀ v ∈ (x.drop s).take (e - s), ValidIdx keyA keyB v) →
      sortLoopOptAux keyA keyB ((s : Int) + 1) f (c : Int) x =
        some (sortLoopAux (lexLt keyA keyB) ((s : Int) + 1) f (c : Int) x) := by
  intro f
  induction f with
  | zero => intro c x _ _ _ _; rfl
  | succ f ih =>
    intro c x hc hce hlen hval
    have hc1 : 1 ≤ c := by omega
    have hce' : c ≤ e := by omega
    have hclen : c - 1 < x.length := by omega
    have hread : getIOpt x ((c : Int) - 1) = some (getI x ((c : Int) - 1)) :=
      getIOpt_of_lt x ((c : Int) - 1) (by omega) (by omega)
    have hxcmem : getI x ((c : Int) - 1) ∈ (x.drop s).take (e - s) := by
      rw [getI_natCast_sub_one x c hc1]
      exact getD_mem_slice x s e (c - 1) (by omega) (by omega) hlen
    have hxcval : ValidIdx keyA keyB (getI x ((c : Int) - 1)) := hval _ hxcmem
    set xc := getI x ((c : Int) - 1) with hxcdef
    have hfuel : (((c : Int) - 1) - ((s : Int) + 1) + 1).toNat = (c - 1) - s := by omega
    have hidx : (c : Int) - 1 = ((c - 1 : Nat) : Int) := by omega
    have hPval : ∀ v ∈ (x.drop s).take ((c - 1) - s), ValidIdx keyA keyB v := by
      intro v hv
      refine hval v ?_
      have hsub : (x.drop s).take ((c - 1) - s) ⊆ (x.drop s).take (e - s) := by
        rw [show (x.drop s).take ((c - 1) - s) = ((x.drop s).take (e - s)).take ((c - 1) - s) by
          rw [List.take_take]
          congr 1
          omega]
        exact List.take_subset _ _
      exact hsub hv
    have hinner := insertLoopOptAux_eq keyA keyB xc s ((c - 1) - s) (c - 1) x
      (by omega) hclen hPval hxcval
    rw [← hidx] at hinner
    simp only [sortLoopOptAux, sortLoopAux, insertLoop, hread, hfuel, hinner]
    -- the unchecked result, in closed form
    have hclosed := insertLoopAux_eq (lexLt keyA keyB) xc s ((c - 1) - s) (c - 1) x
      (by omega) hclen
    rw [← hidx] at hclosed
    set P := (x.drop s).take (c - 1 - s) with hP
    set Q := (insertRev (lexLt keyA keyB) xc P.reverse).reverse with hQ
    have hc1' : (c - 1) + 1 = c := by omega
    rw [hc1'] at hclosed
    have hPlen : P.length = c - 1 - s := by
      rw [hP, List.length_take, List.length_drop]
      omega
    have hQlen : Q.length = c - s := by
      rw [hQ, List.length_reverse, length_insertRev, List.length_reverse, hPlen]
      omega
    have htake : (x.take s).length = s := by
      rw [List.length_take]
      omega
    have hlen2 : e ≤ (x.take s ++ Q ++ x.drop c).length := by
      rw [List.length_append, List.length_append, htake, hQlen, List.length_drop]
      omega
    have hvalnew : ∀ v ∈ ((x.take s ++ Q ++ x.drop c).drop s).take (e - s),
        ValidIdx keyA keyB v := by
      intro v hv
      rw [List.append_assoc, List.drop_left' htake,
        show e - s = Q.length + (e - c) by rw [hQlen]; omega,
        List.take_append] at hv
      rcases List.mem_append.mp hv with hvQ | hvtail
      · -- element of the freshly inserted prefix: one of xc or the old prefix
        have : v ∈ xc :: P.reverse :=
          (insertRev_perm (lexLt keyA keyB) xc P.reverse).subset
            (by rw [hQ] at hvQ; exact List.mem_reverse.mp hvQ)
        rcases List.mem_cons.mp this with hv' | hv'
        · rw [hv']
          exact hxcval
        · exact hPval v (List.mem_reverse.mp hv')
      · -- element of the old tail beyond position c
        have hvtail' : v ∈ (x.drop c).take (e - c) := hvtail
        have : (x.drop c).take (e - c) ⊆ (x.drop s).take (e - s) := by
          rw [show (x.drop c).take (e - c) = ((x.drop s).take (e - s)).drop (c - s) by
            rw [List.drop_take, List.drop_drop]
            congr 1
            · omega
            · congr 1
              omega]
          exact List.drop_subset _ _
        exact hval v (this hvtail')
    have hcast1 : ((c : Int) + 1) = ((c + 1 : Nat) : Int) := by omega
    rw [hcast1]
    rw [hclosed]
    exact ih (c + 1) (x.take s ++ Q ++ x.drop c) (by omega) (by omega) hlen2 hvalnew

/-- Claim C10: when every element of the sorted range is a valid 1-based
index into both key vectors, every access the keyed sort makes to `x`,
`keyA` and `keyB` is in bounds — the checked (`Option`) embedding never
takes its out-of-bounds branch and returns exactly the unchecked result —
and the key vectors come back unchanged. -/
theorem insertionsort_accesses_safe (x : List Int) (xstart xend : Int) (keyA keyB : List Int)
    (h1 : 1 ≤ xstart) (h2 : xstart ≤ xend) (h3 : xend ≤ (x.length : Int))
    (hvalid : ∀ v ∈ sliceOf x xstart xend, ValidIdx keyA keyB v) :
    insertionsortOpt x xstart xend keyA keyB =
      some (insertionsort x xstart xend keyA keyB, keyA, keyB) := by
  set s := (xstart - 1).toNat with hs
  set e := xend.toNat with he
  have hxs : xstart = (s : Int) + 1 := by omega
  have hfuel : (xend - ((s : Int) + 1)).toNat = e - s - 1 := by omega
  have hk : ((s : Int) + 1) + 1 = ((s + 2 : Nat) : Int) := by omega
  have hmain := sortLoopOptAux_eq keyA keyB s e (e - s - 1) (s + 2) x
    (by omega) (by omega) (by omega) (fun v hv => hvalid v hv)
  simp only [insertionsortOpt, insertionsort, insertionsortBy, hxs]
  rw [hfuel, hk]
  simp only [hmain]

theorem insertionsort_accesses_safe_witness :
    insertionsortOpt [2, 1] 1 2 [4, 3] [0, 0] =
      some (insertionsort [2, 1] 1 2 [4, 3] [0, 0], [4, 3], [0, 0]) :=
  insertionsort_accesses_safe [2, 1] 1 2 [4, 3] [0, 0]
    (by decide) (by decide) (by decide) (by decide)

theorem zip_map_fst_snd {α β : Type _} : ∀ l : List (α × β),
    (l.map Prod.fst).zip (l.map Prod.snd) = l := by
  intro l
  induction l with
  | nil => rfl
  | cons p l ih => simp [ih]

theorem chain_le (f : Nat → Nat) :
    ∀ n, (∀ j, j < n → f j ≤ f (j + 1)) → ∀ i, i ≤ n → f i ≤ f n := by
  intro n
  induction n with
  | zero =>
    intro _ i hi
    have : i = 0 := by omega
    simp [this]
  | succ n ih =>
    intro h i hi
    by_cases hin : i = n + 1
    · simp [hin]
    · exact le_trans (ih (fun j hj => h j (by omega)) i (by omega)) (h n (by omega))

theorem sum_range_sub_of_monotone (f : Nat → Nat) :
    ∀ n, (∀ j, j < n → f j ≤ f (j + 1)) →
      ((List.range n).map (fun j => f (j + 1) - f j)).sum = f n - f 0 := by
  intro n
  induction n with
  | zero => simp
  | succ n ih =>
    intro h
    rw [List.range_succ, List.map_append, List.sum_append,
      ih (fun j hj => h j (by omega))]
    have h1 : f 0 ≤ f n := chain_le f n (fun j hj => h j (by omega)) 0 (by omega)
    have h2 : f n ≤ f (n + 1) := h n (by omega)
    simp
    omega

theorem flatten_slice {α : Type _} (cols : List (List α)) (j : Nat) (hj : j < cols.length) :
    (cols.flatten.drop (((cols.take j).map List.length).sum)).take
      (((cols.take (j + 1)).map List.length).sum - ((cols.take j).map List.length).sum) =
      cols.getD j [] := by
  have hmt : ∀ i : Nat, (cols.take i).map List.length = (cols.map List.length).take i := by
    intro i
    rw [List.map_take]
  have htk : cols.take (j + 1) = cols.take j ++ [cols.getD j []] := by
    rw [List.take_succ, List.getElem?_eq_getElem hj, List.getD_eq_getElem cols [] hj]
    rfl
  have hsum : ((cols.take (j + 1)).map List.length).sum =
      ((cols.take j).map List.length).sum + (cols.getD j []).length := by
    rw [htk, List.map_append, List.sum_append]
    simp
  rw [hsum, hmt, List.drop_sum_flatten]
  have hdr : cols.drop j = cols.getD j [] :: cols.drop (j + 1) := by
    rw [List.getD_eq_getElem cols [] hj]
    exact List.drop_eq_getElem_cons hj
  rw [hdr, List.flatten_cons, Nat.add_sub_cancel_left, List.take_left' rfl]

theorem colStart_vertcatResult (top bottom : SparseMatrix) (j : Nat) (hj : j ≤ top.numCols) :
    colStart (vertcatResult top bottom) j =
      ((((List.range top.numCols).map (vertcatColumn top bottom)).take j).map
        List.length).sum := by
  rw [colStart, vertcatResult]
  rw [List.getD_eq_getElem?_getD, List.getElem?_map,
    List.getElem?_range (by omega : j < top.numCols + 1)]
  rfl

theorem getD_cols_vertcat (top bottom : SparseMatrix) (j : Nat) (hj : j < top.numCols) :
    ((List.range top.numCols).map (vertcatColumn top bottom)).getD j [] =
      vertcatColumn top bottom j := by
  rw [List.getD_eq_getElem?_getD, List.getElem?_map, List.getElem?_range hj]
  rfl

theorem map_take_length_comm {α β : Type _} (g : α → β) (cols : List (List α)) (i : Nat) :
    ((cols.map (fun c => c.map g)).take i).map List.length =
      (cols.take i).map List.length := by
  rw [← List.map_take, List.map_map]
  apply List.map_congr_left
  intro c _
  simp

theorem getD_map_cols {α β : Type _} (g : α → β) (cols : List (List α)) (j : Nat)
    (hj : j < cols.length) :
    (cols.map (fun c => c.map g)).getD j [] = (cols.getD j []).map g := by
  rw [List.getD_eq_getElem?_getD, List.getElem?_map, List.getElem?_eq_getElem hj,
    List.getD_eq_getElem cols [] hj]
  rfl

theorem colEntries_vertcatResult (top bottom : SparseMatrix) (j : Nat)
    (hj : j < top.numCols) :
    colEntries (vertcatResult top bottom) j = vertcatColumn top bottom j := by
  set cols := (List.range top.numCols).map (vertcatColumn top bottom) with hcols
  have hlen : cols.length = top.numCols := by
    rw [hcols, List.length_map, List.length_range]
  have hrow : rowSlice (vertcatResult top bottom) j =
      (vertcatColumn top bottom j).map Prod.fst := by
    rw [rowSlice, colStart_vertcatResult top bottom j (by omega),
      colStart_vertcatResult top bottom (j + 1) (by omega)]
    show ((cols.map (fun c => c.map Prod.fst)).flatten.drop
        ((cols.take j).map List.length).sum).take
        (((cols.take (j + 1)).map List.length).sum -
          ((cols.take j).map List.length).sum) =
      (vertcatColumn top bottom j).map Prod.fst
    rw [← map_take_length_comm Prod.fst cols j, ← map_take_length_comm Prod.fst cols (j + 1)]
    rw [flatten_slice (cols.map (fun c => c.map Prod.fst)) j
      (by rw [List.length_map]; omega)]
    rw [getD_map_cols Prod.fst cols j (by omega), hcols,
      getD_cols_vertcat top bottom j hj]
  have hval : valSlice (vertcatResult top bottom) j =
      (vertcatColumn top bottom j).map Prod.snd := by
    rw [valSlice, colStart_vertcatResult top bottom j (by omega),
      colStart_vertcatResult top bottom (j + 1) (by omega)]
    show ((cols.map (fun c => c.map Prod.snd)).flatten.drop
        ((cols.take j).map List.length).sum).take
        (((cols.take (j + 1)).map List.length).sum -
          ((cols.take j).map List.length).sum) =
      (vertcatColumn top bottom j).map Prod.snd
    rw [← map_take_length_comm Prod.snd cols j, ← map_take_length_comm Prod.snd cols (j + 1)]
    rw [flatten_slice (cols.map (fun c => c.map Prod.snd)) j
      (by rw [List.length_map]; omega)]
    rw [getD_map_cols Prod.snd cols j (by omega), hcols,
      getD_cols_vertcat top bottom j hj]
  rw [colEntries, hrow, hval, zip_map_fst_snd]

theorem length_colEntries (A : SparseMatrix) (hwf : A.WF) (j : Nat) (hj : j < A.numCols) :
    (colEntries A j).length = colStart A (j + 1) - colStart A j := by
  obtain ⟨hcp, h0, hlast, hrlen, hmono⟩ := hwf
  have hle : colStart A (j + 1) ≤ A.values.length := by
    rw [← hlast]
    exact chain_le (colStart A) A.numCols hmono (j + 1) (by omega)
  rw [colEntries, List.length_zip, rowSlice, valSlice,
    List.length_take, List.length_take, List.length_drop, List.length_drop, hrlen]
  omega

theorem sum_map_add (f g : Nat → Nat) (l : List Nat) :
    (l.map (fun j => f j + g j)).sum = (l.map f).sum + (l.map g).sum := by
  induction l with
  | nil => rfl
  | cons a l ih =>
    simp only [List.map_cons, List.sum_cons, ih]
    omega

theorem sum_colStart_diff (A : SparseMatrix) (hwf : A.WF) :
    ((List.range A.numCols).map (fun j => colStart A (j + 1) - colStart A j)).sum = nnz A := by
  obtain ⟨hcp, h0, hlast, hrlen, hmono⟩ := hwf
  rw [sum_range_sub_of_monotone (colStart A) A.numCols hmono, h0, hlast, nnz]
  omega

theorem nnz_vertcatResult (top bottom : SparseMatrix) (hwt : top.WF) (hwb : bottom.WF)
    (hc : top.numCols = bottom.numCols) :
    nnz (vertcatResult top bottom) = nnz top + nnz bottom := by
  rw [nnz]
  show ((((List.range top.numCols).map (vertcatColumn top bottom)).map
      (fun c => c.map Prod.snd)).flatten).length = nnz top + nnz bottom
  rw [List.length_flatten, List.map_map, List.map_map]
  have hcongr : (List.range top.numCols).map
      ((List.length ∘ fun c => c.map Prod.snd) ∘ vertcatColumn top bottom) =
      (List.range top.numCols).map (fun j =>
        (fun i => colStart top (i + 1) - colStart top i) j +
          (fun i => colStart bottom (i + 1) - colStart bottom i) j) := by
    apply List.map_congr_left
    intro j hjm
    have hj : j < top.numCols := List.mem_range.mp hjm
    show ((vertcatColumn top bottom j).map Prod.snd).length = _
    rw [List.length_map, vertcatColumn, List.length_append, List.length_map,
      length_colEntries top hwt j hj,
      length_colEntries bottom hwb j (by omega)]
  rw [hcongr, sum_map_add (fun i => colStart top (i + 1) - colStart top i)
    (fun i => colStart bottom (i + 1) - colStart bottom i) (List.range top.numCols),
    sum_colStart_diff top hwt]
  rw [hc, sum_colStart_diff bottom hwb]

/-- Claim C6: for well-formed CSC matrices with equal column counts,
`verticalConcat` returns a matrix of shape
`(top.numRows + bottom.numRows) × top.numCols` whose column `j` is exactly
the top column `j` (row indices unchanged) followed by the bottom column `j`
with every row index increased by exactly `top.numRows`, and whose total
non-zero count is `nnz top + nnz bottom`. -/
theorem sparse_vertcat_correct (top bottom : SparseMatrix)
    (hwt : top.WF) (hwb : bottom.WF) (hc : top.numCols = bottom.numCols) :
    sparse_vertcat top bottom = Except.ok (vertcatResult top bottom) ∧
      (vertcatResult top bottom).numRows = top.numRows + bottom.numRows ∧
      (vertcatResult top bottom).numCols = top.numCols ∧
      (∀ j, j < top.numCols →
        colEntries (vertcatResult top bottom) j =
          colEntries top j ++
            (colEntries bottom j).map (fun p => (p.1 + (top.numRows : Int), p.2))) ∧
      nnz (vertcatResult top bottom) = nnz top + nnz bottom := by
  refine ⟨by rw [sparse_vertcat, if_pos hc], rfl, rfl, ?_,
    nnz_vertcatResult top bottom hwt hwb hc⟩
  intro j hj
  rw [colEntries_vertcatResult top bottom j hj, vertcatColumn]

theorem sparse_vertcat_correct_witness :
    sparse_vertcat
        { values := [1], rowIndex := [0], colPointer := [0, 1], numRows := 1, numCols := 1 }
        { values := [2], rowIndex := [0], colPointer := [0, 1], numRows := 1, numCols := 1 } =
      Except.ok (vertcatResult
        { values := [1], rowIndex := [0], colPointer := [0, 1], numRows := 1, numCols := 1 }
        { values := [2], rowIndex := [0], colPointer := [0, 1], numRows := 1, numCols := 1 }) ∧
      (vertcatResult
        { values := [1], rowIndex := [0], colPointer := [0, 1], numRows := 1, numCols := 1 }
        { values := [2], rowIndex := [0], colPointer := [0, 1], numRows := 1, numCols := 1 }).numRows = 1 + 1 ∧
      (vertcatResult
        { values := [1], rowIndex := [0], colPointer := [0, 1], numRows := 1, numCols := 1 }
        { values := [2], rowIndex := [0], colPointer := [0, 1], numRows := 1, numCols := 1 }).numCols = 1 ∧
      (∀ j, j < 1 →
        colEntries (vertcatResult
          { values := [1], rowIndex := [0], colPointer := [0, 1], numRows := 1, numCols := 1 }
          { values := [2], rowIndex := [0], colPointer := [0, 1], numRows := 1, numCols := 1 }) j =
          colEntries
            { values := [1], rowIndex := [0], colPointer := [0, 1], numRows := 1, numCols := 1 } j ++
            (colEntries
              { values := [2], rowIndex := [0], colPointer := [0, 1], numRows := 1, numCols := 1 } j).map
              (fun p => (p.1 + ((1 : Nat) : Int), p.2))) ∧
      nnz (vertcatResult
        { values := [1], rowIndex := [0], colPointer := [0, 1], numRows := 1, numCols := 1 }
        { values := [2], rowIndex := [0], colPointer := [0, 1], numRows := 1, numCols := 1 }) =
        nnz { values := [1], rowIndex := [0], colPointer := [0, 1], numRows := 1, numCols := 1 } +
          nnz { values := [2], rowIndex := [0], colPointer := [0, 1], numRows := 1, numCols := 1 } :=
  sparse_vertcat_correct
    { values := [1], rowIndex := [0], colPointer := [0, 1], numRows := 1, numCols := 1 }
    { values := [2], rowIndex := [0], colPointer := [0, 1], numRows := 1, numCols := 1 }
    (by constructor <;> simp [colStart]) (by constructor <;> simp [colStart]) rfl

/-- Claim C7: dimension mismatches always fail with `ShapeMismatch` at call
entry: `verticalConcat` whenever the column counts differ, and `iteratedQR`
whenever the row counts of `A` and `b` differ. -/
theorem dimension_mismatch_errors (top bottom A b : SparseMatrix)
    (hvc : top.numCols ≠ bottom.numCols) (hqr : A.numRows ≠ b.numRows) :
    sparse_vertcat top bottom = Except.error KernelError.ShapeMismatch ∧
      CXSparseAPI_iteratedQR A b = Except.error KernelError.ShapeMismatch := by
  constructor
  · rw [sparse_vertcat, if_neg hvc]
  · rw [CXSparseAPI_iteratedQR, if_pos hqr]

theorem dimension_mismatch_errors_witness :
    sparse_vertcat
        { values := [1], rowIndex := [0], colPointer := [0, 1], numRows := 1, numCols := 1 }
        { values := [], rowIndex := [], colPointer := [0, 0, 0], numRows := 1, numCols := 2 } =
      Except.error KernelError.ShapeMismatch ∧
      CXSparseAPI_iteratedQR
        { values := [1], rowIndex := [0], colPointer := [0, 1], numRows := 1, numCols := 1 }
        { values := [], rowIndex := [], colPointer := [0, 0], numRows := 2, numCols := 1 } =
      Except.error KernelError.ShapeMismatch :=
  dimension_mismatch_errors _ _ _ _ (by decide) (by decide)

theorem length_vecScale (c : ℚ) (u : List ℚ) : (vecScale c u).length = u.length := by
  rw [vecScale, List.length_map]

theorem length_vecSub (u v : List ℚ) : (vecSub u v).length = min u.length v.length := by
  rw [vecSub, List.length_map, List.length_zip]

theorem projResid_cons (u : List ℚ) (U : List (List ℚ)) (v : List ℚ) :
    projResid (u :: U) v =
      projResid U (vecSub v (vecScale (dotProd v u / dotProd u u) u)) := rfl

theorem length_projResid (m : Nat) :
    ∀ (U : List (List ℚ)) (v : List ℚ), v.length = m → (∀ u ∈ U, u.length = m) →
      (projResid U v).length = m := by
  intro U
  induction U with
  | nil => intro v hv _; exact hv
  | cons u U ih =>
    intro v hv h
    rw [projResid_cons]
    refine ih _ ?_ (fun u' hu' => h u' (List.mem_cons_of_mem u hu'))
    rw [length_vecSub, length_vecScale, hv, h u (List.mem_cons_self u U)]
    omega

theorem dotProd_zero_left : ∀ (m : Nat) (u : List ℚ),
    dotProd (List.replicate m 0) u = 0 := by
  intro m
  induction m with
  | zero => intro u; rfl
  | succ m ih =>
    intro u
    cases u with
    | nil => rfl
    | cons a u =>
      rw [List.replicate_succ, dotProd, List.zip_cons_cons, List.map_cons, List.sum_cons]
      have := ih u
      rw [dotProd] at this
      rw [this]
      simp

theorem vecSub_zero_scale_zero : ∀ (u : List ℚ) (m : Nat), u.length = m →
    vecSub (List.replicate m 0) (vecScale 0 u) = List.replicate m 0 := by
  intro u
  induction u with
  | nil =>
    intro m hm
    have : m = 0 := by simpa using hm.symm
    subst this
    rfl
  | cons a u ih =>
    intro m hm
    have hm' : m = u.length + 1 := by simpa using hm.symm
    subst hm'
    rw [List.replicate_succ, vecScale, List.map_cons, vecSub, List.zip_cons_cons,
      List.map_cons]
    have := ih u.length rfl
    rw [vecSub, vecScale] at this
    rw [this]
    norm_num

theorem projResid_zero (m : Nat) :
    ∀ (U : List (List ℚ)), (∀ u ∈ U, u.length = m) →
      projResid U (List.replicate m 0) = List.replicate m 0 := by
  intro U
  induction U with
  | nil => intro _; rfl
  | cons u U ih =>
    intro h
    rw [projResid_cons, dotProd_zero_left, zero_div,
      vecSub_zero_scale_zero u m (h u (List.mem_cons_self u U))]
    exact ih (fun u' hu' => h u' (List.mem_cons_of_mem u hu'))

theorem isZeroVec_replicate (m : Nat) : isZeroVec (List.replicate m 0) = true := by
  rw [isZeroVec, List.all_eq_true]
  intro q hq
  rw [List.eq_of_mem_replicate hq]
  rfl

theorem eq_replicate_of_isZeroVec (v : List ℚ) (h : isZeroVec v = true) :
    v = List.replicate v.length 0 := by
  rw [List.eq_replicate_iff]
  refine ⟨rfl, ?_⟩
  intro b hb
  rw [isZeroVec, List.all_eq_true] at h
  simpa using h b hb

theorem gsAccum_fst_ne_nil (st : List (List ℚ) × List Nat × List (List ℚ))
    (jv : Nat × List ℚ) (h : st.1 ≠ []) : (gsAccum st jv).1 ≠ [] := by
  rw [gsAccum]
  by_cases hc : isZeroVec (projResid st.1 jv.2) = true
  · rw [if_pos hc]
    exact h
  · rw [if_neg hc]
    simp

theorem foldl_gsAccum_ne_nil :
    ∀ (L : List (Nat × List ℚ)) (st : List (List ℚ) × List Nat × List (List ℚ)),
      st.1 ≠ [] → (L.foldl gsAccum st).1 ≠ [] := by
  intro L
  induction L with
  | nil => intro st h; exact h
  | cons p L ih =>
    intro st h
    rw [List.foldl_cons]
    exact ih _ (gsAccum_fst_ne_nil st p h)

theorem foldl_gsAccum_nonzero :
    ∀ (L : List (Nat × List ℚ)) (st : List (List ℚ) × List Nat × List (List ℚ)),
      (∃ p ∈ L, isZeroVec p.2 = false) → (L.foldl gsAccum st).1 ≠ [] := by
  intro L
  induction L with
  | nil =>
    intro st h
    obtain ⟨p, hp, _⟩ := h
    exact absurd hp (List.not_mem_nil p)
  | cons q L ih =>
    intro st h
    rw [List.foldl_cons]
    by_cases hst : st.1 = []
    · obtain ⟨p, hp, hpz⟩ := h
      rcases List.mem_cons.mp hp with hpq | hpL
      · subst hpq
        have hacc : (gsAccum st p).1 ≠ [] := by
          rw [gsAccum]
          have hres : projResid st.1 p.2 = p.2 := by
            rw [hst]
            rfl
          rw [hres, if_neg (by rw [hpz]; simp)]
          simp
        exact foldl_gsAccum_ne_nil L _ hacc
      · exact ih _ ⟨p, hpL, hpz⟩
    · exact foldl_gsAccum_ne_nil L _ (gsAccum_fst_ne_nil st q hst)

theorem foldl_gsAccum_length_le :
    ∀ (L : List (Nat × List ℚ)) (st : List (List ℚ) × List Nat × List (List ℚ)),
      (L.foldl gsAccum st).1.length ≤ st.1.length + L.length := by
  intro L
  induction L with
  | nil => intro st; simp
  | cons p L ih =>
    intro st
    rw [List.foldl_cons]
    refine le_trans (ih (gsAccum st p)) ?_
    have hstep : (gsAccum st p).1.length ≤ st.1.length + 1 := by
      rw [gsAccum]
      by_cases hc : isZeroVec (projResid st.1 p.2) = true
      · rw [if_pos hc]
        omega
      · rw [if_neg hc]
        simp
    simp only [List.length_cons]
    omega

theorem foldl_gsAccum_lens (m : Nat) :
    ∀ (L : List (Nat × List ℚ)) (st : List (List ℚ) × List Nat × List (List ℚ)),
      (∀ p ∈ L, p.2.length = m) → (∀ u ∈ st.1, u.length = m) →
      ∀ u ∈ (L.foldl gsAccum st).1, u.length = m := by
  intro L
  induction L with
  | nil => intro st _ hst; exact hst
  | cons p L ih =>
    intro st hL hst
    rw [List.foldl_cons]
    refine ih (gsAccum st p) (fun q hq => hL q (List.mem_cons_of_mem p hq)) ?_
    rw [gsAccum]
    by_cases hc : isZeroVec (projResid st.1 p.2) = true
    · rw [if_pos hc]
      exact hst
    · rw [if_neg hc]
      intro u hu
      rcases List.mem_append.mp hu with hu | hu
      · exact hst u hu
      · rw [List.mem_singleton.mp hu]
        exact length_projResid m st.1 p.2 (hL p (List.mem_cons_self p L)) hst

theorem gsAccum_zero_col (m : Nat) (st : List (List ℚ) × List Nat × List (List ℚ))
    (j : Nat) (v : List ℚ) (hv : isZeroVec v = true) (hvm : v.length = m)
    (hst : ∀ u ∈ st.1, u.length = m) : gsAccum st (j, v) = st := by
  have hvrep : v = List.replicate m 0 := by
    rw [eq_replicate_of_isZeroVec v hv, hvm]
  rw [gsAccum]
  have : projResid st.1 (j, v).2 = List.replicate m 0 := by
    show projResid st.1 v = _
    rw [hvrep]
    exact projResid_zero m st.1 hst
  rw [this, if_pos (isZeroVec_replicate m)]

theorem length_colDense (A : SparseMatrix) (j : Nat) :
    (colDense A j).length = A.numRows := by
  simp [colDense]

theorem gsRun_ne_nil (A : SparseMatrix) (j : Nat) (hj : j < A.numCols)
    (hnz : isZeroVec (colDense A j) = false) : (gsRun A).1 ≠ [] := by
  rw [gsRun]
  refine foldl_gsAccum_nonzero _ _ ⟨(j, colDense A j), ?_, hnz⟩
  exact List.mem_map.mpr ⟨j, List.mem_range.mpr hj, rfl⟩

theorem gsRun_rank_lt (A : SparseMatrix) (j0 : Nat) (hj0 : j0 < A.numCols)
    (hz : isZeroVec (colDense A j0) = true) :
    (gsRun A).1.length < A.numCols := by
  rw [gsRun]
  set L := (List.range A.numCols).map (fun j => (j, colDense A j)) with hL
  have hmem : (j0, colDense A j0) ∈ L :=
    List.mem_map.mpr ⟨j0, List.mem_range.mpr hj0, rfl⟩
  obtain ⟨L1, L2, hsplit⟩ := List.append_of_mem hmem
  have hLlen : L.length = A.numCols := by
    rw [hL, List.length_map, List.length_range]
  have hlens : ∀ p ∈ L, p.2.length = A.numRows := by
    intro p hp
    obtain ⟨j, hj, hpe⟩ := List.mem_map.mp hp
    rw [← hpe]
    exact length_colDense A j
  rw [hsplit, List.foldl_append, List.foldl_cons]
  have hmid : gsAccum (L1.foldl gsAccum ([], [], [])) (j0, colDense A j0) =
      L1.foldl gsAccum ([], [], []) := by
    refine gsAccum_zero_col A.numRows _ j0 (colDense A j0) hz (length_colDense A j0) ?_
    refine foldl_gsAccum_lens A.numRows L1 ([], [], []) ?_ ?_
    · intro p hp
      exact hlens p (by rw [hsplit]; exact List.mem_append_left _ hp)
    · intro u hu
      exact absurd hu (List.not_mem_nil u)
  rw [hmid]
  have h1 := foldl_gsAccum_length_le L2 (L1.foldl gsAccum ([], [], []))
  have h2 := foldl_gsAccum_length_le L1 ([], [], [])
  have hlen12 : L1.length + L2.length + 1 = A.numCols := by
    rw [← hLlen, hsplit, List.length_append, List.length_cons]
    omega
  simp only [List.length_nil] at h2
  omega

theorem foldl_gsAccum_all_zero :
    ∀ L : List (Nat × List ℚ), (∀ p ∈ L, isZeroVec p.2 = true) →
      (L.foldl gsAccum ([], [], [])).1 = [] := by
  intro L
  induction L with
  | nil => intro _; rfl
  | cons p L ih =>
    intro h
    rw [List.foldl_cons]
    have hstep : gsAccum ([], [], []) p = ([], [], []) := by
      rw [gsAccum]
      have hres : projResid ([] : List (List ℚ)) p.2 = p.2 := rfl
      rw [show (([], [], []) : List (List ℚ) × List Nat × List (List ℚ)).1 =
        ([] : List (List ℚ)) from rfl, hres,
        if_pos (h p (List.mem_cons_self p L))]
    rw [hstep]
    exact ih (fun q hq => h q (List.mem_cons_of_mem p hq))

theorem iteratedQR_singular_iff_lemma (A b : SparseMatrix)
    (hshape : A.numRows = b.numRows) :
    CXSparseAPI_iteratedQR A b = Except.error KernelError.SingularSystem ↔
      ∀ j, j < A.numCols → isZeroVec (colDense A j) = true := by
  rw [CXSparseAPI_iteratedQR, if_neg (not_not_intro hshape)]
  constructor
  · intro h j hj
    by_contra hnz
    rw [Bool.not_eq_true] at hnz
    have hne := gsRun_ne_nil A j hj hnz
    rw [if_neg (fun hh => hne (List.length_eq_zero.mp hh))] at h
    exact Except.noConfusion h
  · intro hall
    have hnil : (gsRun A).1 = [] := by
      rw [gsRun]
      refine foldl_gsAccum_all_zero _ ?_
      intro p hp
      obtain ⟨j, hj, hpe⟩ := List.mem_map.mp hp
      rw [← hpe]
      exact hall j (List.mem_range.mp hj)
    rw [if_pos (by rw [hnil]; rfl)]

theorem dotProd_nil_left (v : List ℚ) : dotProd [] v = 0 := by
  rw [dotProd, List.zip_nil_left]
  rfl

theorem dotProd_nil_right (u : List ℚ) : dotProd u [] = 0 := by
  rw [dotProd, List.zip_nil_right]
  rfl

theorem dotProd_cons (a b : ℚ) (u v : List ℚ) :
    dotProd (a :: u) (b :: v) = a * b + dotProd u v := by
  rw [dotProd, List.zip_cons_cons, List.map_cons, List.sum_cons]
  rfl

theorem vecScale_cons (c a : ℚ) (u : List ℚ) :
    vecScale c (a :: u) = (c * a) :: vecScale c u := rfl

theorem vecSub_cons (a b : ℚ) (u v : List ℚ) :
    vecSub (a :: u) (b :: v) = (a - b) :: vecSub u v := rfl

theorem vecAdd_cons (a b : ℚ) (u v : List ℚ) :
    vecAdd (a :: u) (b :: v) = (a + b) :: vecAdd u v := rfl

theorem dotProd_comm : ∀ u v : List ℚ, dotProd u v = dotProd v u := by
  intro u
  induction u with
  | nil => intro v; rw [dotProd_nil_left, dotProd_nil_right]
  | cons a u ih =>
    intro v
    cases v with
    | nil => rw [dotProd_nil_left, dotProd_nil_right]
    | cons b v => rw [dotProd_cons, dotProd_cons, ih, mul_comm]

theorem dotProd_vecScale_left (c : ℚ) :
    ∀ u w : List ℚ, dotProd (vecScale c u) w = c * dotProd u w := by
  intro u
  induction u with
  | nil =>
    intro w
    rw [show vecScale c [] = [] from rfl, dotProd_nil_left, mul_zero]
  | cons a u ih =>
    intro w
    cases w with
    | nil => rw [dotProd_nil_right, dotProd_nil_right, mul_zero]
    | cons b w => rw [vecScale_cons, dotProd_cons, dotProd_cons, ih, mul_add, mul_assoc]

theorem dotProd_vecSub_left : ∀ u v w : List ℚ, u.length = v.length →
    dotProd (vecSub u v) w = dotProd u w - dotProd v w := by
  intro u
  induction u with
  | nil =>
    intro v w h
    have hv : v = [] := List.length_eq_zero.mp h.symm
    subst hv
    rw [show vecSub [] [] = [] from rfl, dotProd_nil_left, sub_zero]
  | cons a u ih =>
    intro v w h
    cases v with
    | nil => exact absurd h (by simp)
    | cons b v =>
      cases w with
      | nil => rw [dotProd_nil_right, dotProd_nil_right, dotProd_nil_right, sub_zero]
      | cons e w =>
        rw [vecSub_cons, dotProd_cons, dotProd_cons, dotProd_cons, ih v w (by simpa using h)]
        ring

theorem dotProd_self_nonneg : ∀ v : List ℚ, 0 ≤ dotProd v v := by
  intro v
  induction v with
  | nil => rw [dotProd_nil_left]
  | cons a v ih =>
    rw [dotProd_cons]
    exact add_nonneg (mul_self_nonneg a) ih

theorem isZeroVec_of_dotProd_self : ∀ v : List ℚ, dotProd v v = 0 → isZeroVec v = true := by
  intro v
  induction v with
  | nil => intro _; rfl
  | cons a v ih =>
    intro h
    rw [dotProd_cons] at h
    have haa : a * a = 0 :=
      le_antisymm (by linarith [dotProd_self_nonneg v]) (mul_self_nonneg a)
    have ha : a = 0 := mul_self_eq_zero.mp haa
    have hv : dotProd v v = 0 := by linarith [mul_self_nonneg a]
    rw [isZeroVec, List.all_cons, ha]
    simp only [Bool.and_eq_true, decide_eq_true_eq]
    exact ⟨trivial, ih hv⟩

theorem dotProd_self_ne_zero (v : List ℚ) (h : isZeroVec v = false) : dotProd v v ≠ 0 := by
  intro hc
  simp [isZeroVec_of_dotProd_self v hc] at h

theorem toF_nil_apply (i : Nat) : toF [] i = 0 := by cases i <;> rfl

theorem toF_cons_zero (a : ℚ) (v : List ℚ) : toF (a :: v) 0 = a := rfl

theorem toF_cons_succ (a : ℚ) (v : List ℚ) (i : Nat) : toF (a :: v) (i + 1) = toF v i := rfl

theorem toF_eq_zero_of_le : ∀ (v : List ℚ) (i : Nat), v.length ≤ i → toF v i = 0 := by
  intro v
  induction v with
  | nil => intro i _; exact toF_nil_apply i
  | cons a v ih =>
    intro i hi
    cases i with
    | zero => exact absurd hi (by simp)
    | succ i =>
      rw [toF_cons_succ]
      exact ih i (by simpa using hi)

theorem toF_vecSub_apply : ∀ (u v : List ℚ), u.length = v.length →
    ∀ i, toF (vecSub u v) i = toF u i - toF v i := by
  intro u
  induction u with
  | nil =>
    intro v h i
    have hv : v = [] := List.length_eq_zero.mp h.symm
    subst hv
    rw [show vecSub [] [] = [] from rfl, toF_nil_apply, sub_zero]
  | cons a u ih =>
    intro v h i
    cases v with
    | nil => exact absurd h (by simp)
    | cons b v =>
      cases i with
      | zero => rw [vecSub_cons]; rfl
      | succ i =>
        rw [vecSub_cons, toF_cons_succ, toF_cons_succ, toF_cons_succ]
        exact ih v (by simpa using h) i

theorem toF_vecSub (u v : List ℚ) (h : u.length = v.length) :
    toF (vecSub u v) = toF u - toF v := by
  funext i
  rw [Pi.sub_apply]
  exact toF_vecSub_apply u v h i

theorem toF_vecAdd_apply : ∀ (u v : List ℚ), u.length = v.length →
    ∀ i, toF (vecAdd u v) i = toF u i + toF v i := by
  intro u
  induction u with
  | nil =>
    intro v h i
    have hv : v = [] := List.length_eq_zero.mp h.symm
    subst hv
    rw [show vecAdd [] [] = [] from rfl, toF_nil_apply, add_zero]
  | cons a u ih =>
    intro v h i
    cases v with
    | nil => exact absurd h (by simp)
    | cons b v =>
      cases i with
      | zero => rw [vecAdd_cons]; rfl
      | succ i =>
        rw [vecAdd_cons, toF_cons_succ, toF_cons_succ, toF_cons_succ]
        exact ih v (by simpa using h) i

theorem toF_vecAdd (u v : List ℚ) (h : u.length = v.length) :
    toF (vecAdd u v) = toF u + toF v := by
  funext i
  rw [Pi.add_apply]
  exact toF_vecAdd_apply u v h i

theorem toF_vecScale_apply (c : ℚ) : ∀ (u : List ℚ) (i : Nat),
    toF (vecScale c u) i = c * toF u i := by
  intro u
  induction u with
  | nil =>
    intro i
    rw [show vecScale c [] = [] from rfl, toF_nil_apply, mul_zero]
  | cons a u ih =>
    intro i
    cases i with
    | zero => rw [vecScale_cons]; rfl
    | succ i => rw [vecScale_cons, toF_cons_succ, toF_cons_succ]; exact ih i

theorem toF_vecScale (c : ℚ) (u : List ℚ) : toF (vecScale c u) = c • toF u := by
  funext i
  rw [Pi.smul_apply, smul_eq_mul]
  exact toF_vecScale_apply c u i

theorem toF_replicate_apply : ∀ (m i : Nat), toF (List.replicate m (0 : ℚ)) i = 0 := by
  intro m
  induction m with
  | zero => intro i; exact toF_nil_apply i
  | succ m ih =>
    intro i
    rw [List.replicate_succ]
    cases i with
    | zero => rfl
    | succ i => rw [toF_cons_succ]; exact ih i

theorem toF_replicate (m : Nat) : toF (List.replicate m (0 : ℚ)) = 0 := by
  funext i
  simp only [Pi.zero_apply]
  exact toF_replicate_apply m i

theorem toF_eq_zero_of_isZeroVec (v : List ℚ) (h : isZeroVec v = true) : toF v = 0 := by
  have hrep := eq_replicate_of_isZeroVec v h
  rw [hrep, toF_replicate]

theorem isZeroVec_of_toF (v : List ℚ) (h : ∀ i, toF v i = 0) : isZeroVec v = true := by
  rw [isZeroVec, List.all_eq_true]
  intro a ha
  rw [decide_eq_true_eq]
  obtain ⟨i, hi, hg⟩ := List.mem_iff_getElem.mp ha
  have hz := h i
  rw [toF, List.getD_eq_getElem?_getD, List.getElem?_eq_getElem hi, Option.getD_some, hg] at hz
  exact hz

theorem dotProd_eq_dotF : ∀ (m : Nat) (u v : List ℚ), u.length = m → v.length = m →
    dotProd u v = dotF m (toF u) (toF v) := by
  intro m
  induction m with
  | zero =>
    intro u v hu hv
    have hu0 : u = [] := List.length_eq_zero.mp hu
    subst hu0
    rw [dotProd_nil_left, dotF]
    simp
  | succ m ih =>
    intro u v hu hv
    cases u with
    | nil => exact absurd hu (by simp)
    | cons a u =>
      cases v with
      | nil => exact absurd hv (by simp)
      | cons b v =>
        rw [dotProd_cons, dotF, Finset.sum_range_succ']
        simp only [toF_cons_succ, toF_cons_zero]
        rw [show ∑ i ∈ Finset.range m, toF u i * toF v i = dotF m (toF u) (toF v) from rfl,
          ← ih u v (by simpa using hu) (by simpa using hv), add_comm]

theorem dotF_zero_left (m : Nat) (g : Nat → ℚ) : dotF m 0 g = 0 := by
  rw [dotF]
  refine Finset.sum_eq_zero ?_
  intro i _
  rw [Pi.zero_apply, zero_mul]

theorem dotF_add_left (m : Nat) (f₁ f₂ g : Nat → ℚ) :
    dotF m (f₁ + f₂) g = dotF m f₁ g + dotF m f₂ g := by
  rw [dotF, dotF, dotF, ← Finset.sum_add_distrib]
  refine Finset.sum_congr rfl ?_
  intro i _
  rw [Pi.add_apply, add_mul]

theorem dotF_sub_left (m : Nat) (f₁ f₂ g : Nat → ℚ) :
    dotF m (f₁ - f₂) g = dotF m f₁ g - dotF m f₂ g := by
  rw [dotF, dotF, dotF, ← Finset.sum_sub_distrib]
  refine Finset.sum_congr rfl ?_
  intro i _
  rw [Pi.sub_apply, sub_mul]

theorem dotF_smul_left (m : Nat) (c : ℚ) (f g : Nat → ℚ) :
    dotF m (c • f) g = c * dotF m f g := by
  rw [dotF, dotF, Finset.mul_sum]
  refine Finset.sum_congr rfl ?_
  intro i _
  rw [Pi.smul_apply, smul_eq_mul, mul_assoc]

theorem dotF_comm (m : Nat) (f g : Nat → ℚ) : dotF m f g = dotF m g f := by
  rw [dotF, dotF]
  refine Finset.sum_congr rfl ?_
  intro i _
  rw [mul_comm]

theorem dotF_sum_left (m : Nat) (g : Nat → ℚ) :
    ∀ l : List (Nat → ℚ), dotF m l.sum g = (l.map (fun f => dotF m f g)).sum := by
  intro l
  induction l with
  | nil => rw [List.sum_nil, dotF_zero_left, List.map_nil, List.sum_nil]
  | cons f l ih => rw [List.sum_cons, dotF_add_left, List.map_cons, List.sum_cons, ih]

theorem dotF_self_coord (m : Nat) (f : Nat → ℚ) (h : dotF m f f = 0) :
    ∀ i, i < m → f i = 0 := by
  intro i hi
  rw [dotF] at h
  have hz := (Finset.sum_eq_zero_iff_of_nonneg (fun j _ => mul_self_nonneg (f j))).mp h i
    (Finset.mem_range.mpr hi)
  exact mul_self_eq_zero.mp hz

theorem dotF_eq_zero_of_mem_span (m : Nat) (S : Set (Nat → ℚ)) (g : Nat → ℚ)
    (hS : ∀ x ∈ S, dotF m x g = 0) :
    ∀ y ∈ Submodule.span ℚ S, dotF m y g = 0 := by
  intro y hy
  induction hy using Submodule.span_induction with
  | mem x hx => exact hS x hx
  | zero => exact dotF_zero_left m g
  | add x z hx hz ihx ihz => rw [dotF_add_left, ihx, ihz, add_zero]
  | smul c x hx ihx => rw [dotF_smul_left, ihx, mul_zero]

theorem step_orth_self (v u : List ℚ) (hl : v.length = u.length) (hu : dotProd u u ≠ 0) :
    dotProd (vecSub v (vecScale (dotProd v u / dotProd u u) u)) u = 0 := by
  rw [dotProd_vecSub_left v _ u (by rw [length_vecScale]; exact hl),
    dotProd_vecScale_left, div_mul_cancel₀ _ hu, sub_self]

theorem step_orth_preserve (v u x : List ℚ) (hl : v.length = u.length)
    (hux : dotProd u x = 0) (hvx : dotProd v x = 0) :
    dotProd (vecSub v (vecScale (dotProd v u / dotProd u u) u)) x = 0 := by
  rw [dotProd_vecSub_left v _ x (by rw [length_vecScale]; exact hl),
    dotProd_vecScale_left, hux, hvx, mul_zero, sub_zero]

theorem projResid_orth_preserve (m : Nat) :
    ∀ (U : List (List ℚ)) (w x : List ℚ), w.length = m → (∀ u ∈ U, u.length = m) →
      dotProd w x = 0 → (∀ u ∈ U, dotProd u x = 0) →
      dotProd (projResid U w) x = 0 := by
  intro U
  induction U with
  | nil => intro w x _ _ h _; exact h
  | cons u U ih =>
    intro w x hw hU hwx hUx
    rw [projResid_cons]
    refine ih (vecSub w (vecScale (dotProd w u / dotProd u u) u)) x ?_
      (fun q hq => hU q (List.mem_cons_of_mem u hq)) ?_
      (fun q hq => hUx q (List.mem_cons_of_mem u hq))
    · rw [length_vecSub, length_vecScale, hw, hU u (List.mem_cons_self u U)]
      exact Nat.min_self m
    · exact step_orth_preserve w u x
        (by rw [hw, hU u (List.mem_cons_self u U)])
        (hUx u (List.mem_cons_self u U)) hwx

theorem projResid_orth (m : Nat) :
    ∀ (U : List (List ℚ)) (v : List ℚ), v.length = m → (∀ u ∈ U, u.length = m) →
      (∀ u ∈ U, dotProd u u ≠ 0) → List.Pairwise (fun a b => dotProd b a = 0) U →
      ∀ u ∈ U, dotProd (projResid U v) u = 0 := by
  intro U
  induction U with
  | nil => intro v _ _ _ _ u hu; exact absurd hu (List.not_mem_nil u)
  | cons u₀ U ih =>
    intro v hv hU hnz hpw u hu
    rw [projResid_cons]
    have hw₁ : (vecSub v (vecScale (dotProd v u₀ / dotProd u₀ u₀) u₀)).length = m := by
      rw [length_vecSub, length_vecScale, hv, hU u₀ (List.mem_cons_self u₀ U)]
      exact Nat.min_self m
    rcases List.mem_cons.mp hu with rfl | hu
    · refine projResid_orth_preserve m U _ u hw₁
        (fun q hq => hU q (List.mem_cons_of_mem u hq)) ?_ ?_
      · exact step_orth_self v u (by rw [hv, hU u (List.mem_cons_self u U)])
          (hnz u (List.mem_cons_self u U))
      · intro q hq
        exact (List.pairwise_cons.mp hpw).1 q hq
    · exact ih (vecSub v (vecScale (dotProd v u₀ / dotProd u₀ u₀) u₀)) hw₁
        (fun q hq => hU q (List.mem_cons_of_mem u₀ hq))
        (fun q hq => hnz q (List.mem_cons_of_mem u₀ hq))
        (List.pairwise_cons.mp hpw).2 u hu

theorem toFSet_mono {U V : List (List ℚ)} (h : ∀ u ∈ U, u ∈ V) : toFSet U ⊆ toFSet V := by
  rintro x ⟨u, hu, he⟩
  exact ⟨u, h u hu, he⟩

theorem span_resid (m : Nat) :
    ∀ (U : List (List ℚ)) (v : List ℚ), v.length = m → (∀ u ∈ U, u.length = m) →
      toF v - toF (projResid U v) ∈ Submodule.span ℚ (toFSet U) := by
  intro U
  induction U with
  | nil =>
    intro v _ _
    rw [show projResid [] v = v from rfl, sub_self]
    exact Submodule.zero_mem _
  | cons u₀ U ih =>
    intro v hv hU
    rw [projResid_cons]
    have hw : (vecSub v (vecScale (dotProd v u₀ / dotProd u₀ u₀) u₀)).length = m := by
      rw [length_vecSub, length_vecScale, hv, hU u₀ (List.mem_cons_self u₀ U)]
      exact Nat.min_self m
    have hsub : toF v - toF (vecSub v (vecScale (dotProd v u₀ / dotProd u₀ u₀) u₀)) =
        (dotProd v u₀ / dotProd u₀ u₀) • toF u₀ := by
      rw [toF_vecSub v (vecScale (dotProd v u₀ / dotProd u₀ u₀) u₀)
        (by rw [length_vecScale, hv, hU u₀ (List.mem_cons_self u₀ U)]),
        toF_vecScale, sub_sub_cancel]
    have hdecomp : toF v -
        toF (projResid U (vecSub v (vecScale (dotProd v u₀ / dotProd u₀ u₀) u₀))) =
        (toF v - toF (vecSub v (vecScale (dotProd v u₀ / dotProd u₀ u₀) u₀))) +
        (toF (vecSub v (vecScale (dotProd v u₀ / dotProd u₀ u₀) u₀)) -
          toF (projResid U (vecSub v (vecScale (dotProd v u₀ / dotProd u₀ u₀) u₀)))) := by
      rw [sub_add_sub_cancel]
    rw [hdecomp, hsub]
    refine Submodule.add_mem _ ?_ ?_
    · exact Submodule.smul_mem _ _
        (Submodule.subset_span ⟨u₀, List.mem_cons_self u₀ U, rfl⟩)
    · exact Submodule.span_mono (toFSet_mono (fun q hq => List.mem_cons_of_mem u₀ hq))
        (ih _ hw (fun q hq => hU q (List.mem_cons_of_mem u₀ hq)))

theorem gsAccum_pair (st : List (List ℚ) × List Nat × List (List ℚ)) (j : Nat) (v : List ℚ) :
    gsAccum st (j, v) =
      if isZeroVec (projResid st.1 v) then st
      else (st.1 ++ [projResid st.1 v], st.2.1 ++ [j],
        st.2.2 ++ [st.1.map (fun u => dotProd v u / dotProd u u) ++ [1]]) := rfl

theorem gsInv_nil (m : Nat) : GSInv m [] ([], [], []) := by
  refine ⟨?_, ?_, List.Pairwise.nil, ?_, ?_⟩
  · intro u hu; exact absurd hu (List.not_mem_nil u)
  · intro u hu; exact absurd hu (List.not_mem_nil u)
  · intro v hv; exact absurd hv (List.not_mem_nil v)
  · intro u hu; exact absurd hu (List.not_mem_nil u)

theorem gsInv_step (m : Nat) (P : List (List ℚ))
    (st : List (List ℚ) × List Nat × List (List ℚ)) (j : Nat) (v : List ℚ)
    (hv : v.length = m) (hinv : GSInv m P st) :
    GSInv m (P ++ [v]) (gsAccum st (j, v)) := by
  obtain ⟨hlen, hnz, hpw, hPspan, hUspan⟩ := hinv
  have hwlen : (projResid st.1 v).length = m := length_projResid m st.1 v hv hlen
  have hspanres : toF v - toF (projResid st.1 v) ∈ Submodule.span ℚ (toFSet st.1) :=
    span_resid m st.1 v hv hlen
  rw [gsAccum_pair]
  by_cases hz : isZeroVec (projResid st.1 v) = true
  · rw [if_pos hz]
    refine ⟨hlen, hnz, hpw, ?_, ?_⟩
    · intro q hq
      rcases List.mem_append.mp hq with hq | hq
      · exact hPspan q hq
      · rw [List.mem_singleton.mp hq]
        have hv0 : toF v = toF v - toF (projResid st.1 v) := by
          rw [toF_eq_zero_of_isZeroVec _ hz, sub_zero]
        rw [hv0]
        exact hspanres
    · intro u hu
      exact Submodule.span_mono (toFSet_mono (fun q hq => List.mem_append_left _ hq))
        (hUspan u hu)
  · rw [if_neg hz]
    rw [Bool.not_eq_true] at hz
    have horth : ∀ u ∈ st.1, dotProd (projResid st.1 v) u = 0 :=
      projResid_orth m st.1 v hv hlen (fun u hu => dotProd_self_ne_zero u (hnz u hu)) hpw
    have hsubU : toFSet st.1 ⊆ toFSet (st.1 ++ [projResid st.1 v]) :=
      toFSet_mono (fun q hq => List.mem_append_left _ hq)
    refine ⟨?_, ?_, ?_, ?_, ?_⟩
    · intro u hu
      rcases List.mem_append.mp hu with hu | hu
      · exact hlen u hu
      · rw [List.mem_singleton.mp hu]; exact hwlen
    · intro u hu
      rcases List.mem_append.mp hu with hu | hu
      · exact hnz u hu
      · rw [List.mem_singleton.mp hu]; exact hz
    · rw [List.pairwise_append]
      refine ⟨hpw, List.pairwise_singleton _ _, ?_⟩
      intro a ha b hb
      rw [List.mem_singleton.mp hb]
      exact horth a ha
    · intro q hq
      rcases List.mem_append.mp hq with hq | hq
      · exact Submodule.span_mono hsubU (hPspan q hq)
      · rw [List.mem_singleton.mp hq]
        have hvdec : toF v = (toF v - toF (projResid st.1 v)) + toF (projResid st.1 v) := by
          rw [sub_add_cancel]
        rw [hvdec]
        refine Submodule.add_mem _ (Submodule.span_mono hsubU hspanres) ?_
        exact Submodule.subset_span
          ⟨projResid st.1 v, List.mem_append_right _ (List.mem_singleton_self _), rfl⟩
    · intro u hu
      have hPle : Submodule.span ℚ (toFSet st.1) ≤ Submodule.span ℚ (toFSet (P ++ [v])) := by
        rw [Submodule.span_le]
        rintro x ⟨q, hq, rfl⟩
        exact Submodule.span_mono (toFSet_mono (fun p hp => List.mem_append_left _ hp))
          (hUspan q hq)
      rcases List.mem_append.mp hu with hu | hu
      · exact Submodule.span_mono (toFSet_mono (fun p hp => List.mem_append_left _ hp))
          (hUspan u hu)
      · rw [List.mem_singleton.mp hu]
        have hwdec : toF (projResid st.1 v) = toF v - (toF v - toF (projResid st.1 v)) := by
          rw [sub_sub_cancel]
        rw [hwdec]
        refine Submodule.sub_mem _ ?_ (hPle hspanres)
        exact Submodule.subset_span ⟨v, List.mem_append_right _ (List.mem_singleton_self _), rfl⟩

theorem gsInv_fold (m : Nat) :
    ∀ (L : List (Nat × List ℚ)) (P : List (List ℚ))
      (st : List (List ℚ) × List Nat × List (List ℚ)),
      GSInv m P st → (∀ p ∈ L, p.2.length = m) →
      GSInv m (P ++ L.map Prod.snd) (L.foldl gsAccum st) := by
  intro L
  induction L with
  | nil => intro P st h _; simpa using h
  | cons p L ih =>
    intro P st h hL
    rw [List.foldl_cons, List.map_cons]
    have hstep : GSInv m (P ++ [p.2]) (gsAccum st p) :=
      gsInv_step m P st p.1 p.2 (hL p (List.mem_cons_self p L)) h
    have hrec := ih (P ++ [p.2]) (gsAccum st p) hstep
      (fun q hq => hL q (List.mem_cons_of_mem p hq))
    rw [List.append_assoc, List.singleton_append] at hrec
    exact hrec

theorem gsRun_length_lt_of_dep (A : SparseMatrix)
    (hdep : ¬ LinearIndependent ℚ (fun j : Fin A.numCols => toF (colDense A j.val))) :
    (gsRun A).1.length < A.numCols := by
  set F : Fin A.numCols → (Nat → ℚ) := fun j => toF (colDense A j.val) with hF
  rw [Fintype.linearIndependent_iff] at hdep
  push_neg at hdep
  obtain ⟨g, hg0, i₀, hgi₀⟩ := hdep
  have hSne : (Finset.univ.filter (fun i : Fin A.numCols => g i ≠ 0)).Nonempty :=
    ⟨i₀, Finset.mem_filter.mpr ⟨Finset.mem_univ i₀, hgi₀⟩⟩
  set jm := (Finset.univ.filter (fun i : Fin A.numCols => g i ≠ 0)).max' hSne with hjm
  have hgjm : g jm ≠ 0 := (Finset.mem_filter.mp (Finset.max'_mem _ hSne)).2
  have hmax : ∀ i : Fin A.numCols, g i ≠ 0 → i ≤ jm := fun i hi =>
    Finset.le_max' _ i (Finset.mem_filter.mpr ⟨Finset.mem_univ i, hi⟩)
  have hspan1 : F jm ∈ Submodule.span ℚ (F '' {i : Fin A.numCols | i.val < jm.val}) := by
    have hsum : ∑ i ∈ Finset.univ.erase jm, g i • F i = -(g jm • F jm) := by
      have h := Finset.sum_erase_add Finset.univ (fun i => g i • F i) (Finset.mem_univ jm)
      rw [hg0] at h
      exact eq_neg_of_add_eq_zero_left h
    have hrepr : F jm = (-(g jm)⁻¹) • ∑ i ∈ Finset.univ.erase jm, g i • F i := by
      rw [hsum, neg_smul_neg, smul_smul, inv_mul_cancel₀ hgjm, one_smul]
    rw [hrepr]
    refine Submodule.smul_mem _ _ (Submodule.sum_mem _ ?_)
    intro i hi
    by_cases hgi : g i = 0
    · rw [hgi, zero_smul]
      exact Submodule.zero_mem _
    · refine Submodule.smul_mem _ _ (Submodule.subset_span ?_)
      refine ⟨i, ?_, rfl⟩
      have hine : i ≠ jm := Finset.ne_of_mem_erase hi
      have hile : i ≤ jm := hmax i hgi
      exact Fin.lt_def.mp (lt_of_le_of_ne hile hine)
  set L := (List.range A.numCols).map (fun j => (j, colDense A j)) with hL
  have hLlen : L.length = A.numCols := by rw [hL, List.length_map, List.length_range]
  have hjv : jm.val < A.numCols := jm.isLt
  have hgetL : ∀ h : jm.val < L.length, L[jm.val] = (jm.val, colDense A jm.val) := by
    intro h
    simp only [hL, List.getElem_map, List.getElem_range]
  have hsplit : L = L.take jm.val ++ (jm.val, colDense A jm.val) :: L.drop (jm.val + 1) := by
    conv_lhs => rw [← List.take_append_drop jm.val L]
    rw [List.drop_eq_getElem_cons (by omega), hgetL (by omega)]
  have htake : L.take jm.val = (List.range jm.val).map (fun j => (j, colDense A j)) := by
    rw [hL, ← List.map_take, List.take_range, Nat.min_eq_left (le_of_lt hjv)]
  have hlensL : ∀ p ∈ L, p.2.length = A.numRows := by
    intro p hp
    obtain ⟨j, hj, hpe⟩ := List.mem_map.mp hp
    rw [← hpe]
    exact length_colDense A j
  have hinv := gsInv_fold A.numRows (L.take jm.val) [] ([], [], []) (gsInv_nil A.numRows)
    (fun p hp => hlensL p (List.mem_of_mem_take hp))
  rw [List.nil_append] at hinv
  set st₁ := (L.take jm.val).foldl gsAccum ([], [], []) with hst₁
  obtain ⟨hlen1, hnz1, hpw1, hPspan1, _⟩ := hinv
  have hPcols : (L.take jm.val).map Prod.snd = (List.range jm.val).map (colDense A) := by
    rw [htake, List.map_map]
    rfl
  have hcols_le : Submodule.span ℚ (F '' {i : Fin A.numCols | i.val < jm.val}) ≤
      Submodule.span ℚ (toFSet st₁.1) := by
    rw [Submodule.span_le]
    rintro x ⟨i, hi, rfl⟩
    refine hPspan1 (colDense A i.val) ?_
    rw [hPcols]
    exact List.mem_map.mpr ⟨i.val, List.mem_range.mpr hi, rfl⟩
  have hvspan : toF (colDense A jm.val) ∈ Submodule.span ℚ (toFSet st₁.1) :=
    hcols_le hspan1
  have hwlen : (projResid st₁.1 (colDense A jm.val)).length = A.numRows :=
    length_projResid A.numRows st₁.1 _ (length_colDense A jm.val) hlen1
  have hworth : ∀ u ∈ st₁.1, dotProd (projResid st₁.1 (colDense A jm.val)) u = 0 :=
    projResid_orth A.numRows st₁.1 _ (length_colDense A jm.val) hlen1
      (fun u hu => dotProd_self_ne_zero u (hnz1 u hu)) hpw1
  have hwspan : toF (projResid st₁.1 (colDense A jm.val)) ∈
      Submodule.span ℚ (toFSet st₁.1) := by
    have h1 := span_resid A.numRows st₁.1 (colDense A jm.val) (length_colDense A jm.val) hlen1
    have h2 := Submodule.sub_mem _ hvspan h1
    rwa [sub_sub_cancel] at h2
  have hwz : isZeroVec (projResid st₁.1 (colDense A jm.val)) = true := by
    have horthF : ∀ x ∈ toFSet st₁.1,
        dotF A.numRows x (toF (projResid st₁.1 (colDense A jm.val))) = 0 := by
      rintro x ⟨u, hu, rfl⟩
      rw [← dotProd_eq_dotF A.numRows u _ (hlen1 u hu) hwlen, dotProd_comm]
      exact hworth u hu
    have hD := dotF_eq_zero_of_mem_span A.numRows _ _ horthF _ hwspan
    apply isZeroVec_of_dotProd_self
    rw [dotProd_eq_dotF A.numRows _ _ hwlen hwlen]
    exact hD
  have hmid : gsAccum st₁ (jm.val, colDense A jm.val) = st₁ := by
    rw [gsAccum_pair, if_pos hwz]
  rw [gsRun, ← hL, hsplit, List.foldl_append, List.foldl_cons, ← hst₁, hmid]
  have h1 := foldl_gsAccum_length_le (L.drop (jm.val + 1)) st₁
  have h2 := foldl_gsAccum_length_le (L.take jm.val) ([], [], [])
  rw [← hst₁] at h2
  simp only [List.length_nil] at h2
  have hlt : (L.take jm.val).length = jm.val := by
    rw [List.length_take]
    omega
  have hld : (L.drop (jm.val + 1)).length = A.numCols - jm.val - 1 := by
    rw [List.length_drop]
    omega
  rw [hlt] at h2
  rw [hld] at h1
  omega

/-- Claim C8: on a rank-deficient matrix of non-zero rank (columns linearly
dependent over the exact-rational model, at least one column non-zero),
`iteratedQR` succeeds with rank `< n` and does not raise `SingularSystem`;
`SingularSystem` is raised exactly when no usable pivot exists at all (every
column zero, i.e. rank zero). -/
theorem iteratedQR_rank_deficiency (A b : SparseMatrix)
    (hshape : A.numRows = b.numRows)
    (hdep : ¬ LinearIndependent ℚ (fun j : Fin A.numCols => toF (colDense A j.val)))
    (hnonzero : ∃ j, j < A.numCols ∧ isZeroVec (colDense A j) = false) :
    (∃ res, CXSparseAPI_iteratedQR A b = Except.ok res ∧
      res.rank < A.numCols ∧ res.rank ≠ 0) ∧
    (∀ A' b' : SparseMatrix, A'.numRows = b'.numRows →
      (CXSparseAPI_iteratedQR A' b' = Except.error KernelError.SingularSystem ↔
        ∀ j, j < A'.numCols → isZeroVec (colDense A' j) = true)) := by
  refine ⟨?_, fun A' b' h => iteratedQR_singular_iff_lemma A' b' h⟩
  obtain ⟨j1, hj1, hnz⟩ := hnonzero
  have hne := gsRun_ne_nil A j1 hj1 hnz
  have hlt := gsRun_length_lt_of_dep A hdep
  rw [CXSparseAPI_iteratedQR, if_neg (not_not_intro hshape),
    if_neg (fun hh => hne (List.length_eq_zero.mp hh))]
  exact ⟨_, rfl, hlt, fun hh => hne (List.length_eq_zero.mp hh)⟩

theorem iteratedQR_rank_deficiency_witness :
    (∃ res, CXSparseAPI_iteratedQR
        { values := [1, 1], rowIndex := [0, 0], colPointer := [0, 1, 2],
          numRows := 2, numCols := 2 }
        { values := [1], rowIndex := [0], colPointer := [0, 1], numRows := 2, numCols := 1 } =
        Except.ok res ∧ res.rank < 2 ∧ res.rank ≠ 0) ∧
    (∀ A' b' : SparseMatrix, A'.numRows = b'.numRows →
      (CXSparseAPI_iteratedQR A' b' = Except.error KernelError.SingularSystem ↔
        ∀ j, j < A'.numCols → isZeroVec (colDense A' j) = true)) :=
  iteratedQR_rank_deficiency
    { values := [1, 1], rowIndex := [0, 0], colPointer := [0, 1, 2],
      numRows := 2, numCols := 2 }
    { values := [1], rowIndex := [0], colPointer := [0, 1], numRows := 2, numCols := 1 }
    (by decide)
    (by
      intro h
      have hc : colDense { values := [1, 1], rowIndex := [0, 0], colPointer := [0, 1, 2], numRows := 2, numCols := 2 } 0 = colDense { values := [1, 1], rowIndex := [0, 0], colPointer := [0, 1, 2], numRows := 2, numCols := 2 } 1 := by decide
      have h2 : (0 : Fin 2) = 1 := h.injective (congrArg toF hc)
      exact absurd h2 (by decide))
    ⟨0, by decide, by decide⟩

theorem insertionsortBy_of_ge (lt : Int → Int → Bool) (x : List Int) (xstart xend : Int)
    (h : xend ≤ xstart) : insertionsortBy lt x xstart xend = x := by
  rw [insertionsortBy, show (xend - xstart).toNat = 0 by omega]
  rfl

theorem sliceOf_nat (x : List Int) (sN eN : Nat) :
    sliceOf x ((sN : Int) + 1) (eN : Int) = (x.drop sN).take (eN - sN) := by
  have h1 : (((sN : Int) + 1) - 1).toNat = sN := by omega
  have h2 : ((eN : Int)).toNat = eN := by omega
  rw [sliceOf, h1, h2]

theorem sortColumn_eq_self (A : SparseMatrix) (hwf : A.WF) (hs : strictCols A)
    (j : Nat) (hj : j < A.numCols) : sortColumn A j = A := by
  obtain ⟨hcp, h0, hlast, hrlen, hmono⟩ := hwf
  by_cases hce : colStart A (j + 1) ≤ colStart A j
  · rw [sortColumn, b_insertionsort, insertionsortBy_of_ge _ _ _ _ (by push_cast; omega)]
  · push_neg at hce
    have hxe : colStart A (j + 1) ≤ A.rowIndex.length := by
      rw [hrlen, ← hlast]
      exact chain_le (colStart A) A.numCols hmono (j + 1) (by omega)
    have hsorted : (sliceOf A.rowIndex ((colStart A j : Int) + 1)
        (colStart A (j + 1) : Int)).Pairwise (fun a b => a ≤ b) := by
      rw [sliceOf_nat]
      exact (hs j hj).imp (fun hab => le_of_lt hab)
    rw [sortColumn, b_insertionsort_fixed_of_sorted A.rowIndex _ _
      (by push_cast; omega) (by push_cast; omega) (by push_cast; omega) hsorted]

theorem map_fst_colEntries (A : SparseMatrix) (hwf : A.WF) (j : Nat) :
    (colEntries A j).map Prod.fst = rowSlice A j := by
  obtain ⟨hcp, h0, hlast, hrlen, hmono⟩ := hwf
  rw [colEntries]
  apply List.map_fst_zip
  rw [rowSlice, valSlice, List.length_take, List.length_take, List.length_drop,
    List.length_drop, hrlen]

theorem rowSlice_vertcatResult (top bottom : SparseMatrix) (j : Nat)
    (hj : j < top.numCols) :
    rowSlice (vertcatResult top bottom) j = (vertcatColumn top bottom j).map Prod.fst := by
  set cols := (List.range top.numCols).map (vertcatColumn top bottom) with hcols
  have hlen : cols.length = top.numCols := by
    rw [hcols, List.length_map, List.length_range]
  rw [rowSlice, colStart_vertcatResult top bottom j (by omega),
    colStart_vertcatResult top bottom (j + 1) (by omega)]
  show ((cols.map (fun c => c.map Prod.fst)).flatten.drop
      ((cols.take j).map List.length).sum).take
      (((cols.take (j + 1)).map List.length).sum - ((cols.take j).map List.length).sum) =
    (vertcatColumn top bottom j).map Prod.fst
  rw [← map_take_length_comm Prod.fst cols j, ← map_take_length_comm Prod.fst cols (j + 1)]
  rw [flatten_slice (cols.map (fun c => c.map Prod.fst)) j (by rw [List.length_map]; omega)]
  rw [getD_map_cols Prod.fst cols j (by omega), hcols, getD_cols_vertcat top bottom j hj]

/-- Counterexample to claim C5 as stated: a well-formed CSC matrix whose
single column has strictly ascending row indices `[1, 2]`, on which
`sortRangeByKeys` (with keys making index 2 sort before index 1) leaves the
column as `[2, 1]` — not ascending.  The keyed sort orders by the key
vectors, not by row value, so it does not preserve the ascending-row
invariant. -/
theorem sortColumnByKeys_breaks_ascending :
    (SparseMatrix.WF
        { values := [1, 1], rowIndex := [1, 2], colPointer := [0, 2], numRows := 3, numCols := 1 } ∧
      strictCols
        { values := [1, 1], rowIndex := [1, 2], colPointer := [0, 2], numRows := 3, numCols := 1 }) ∧
    ¬ strictCols (sortColumnByKeys
        { values := [1, 1], rowIndex := [1, 2], colPointer := [0, 2], numRows := 3, numCols := 1 }
        0 [10, 5] [0, 0]) := by
  constructor
  · constructor
    · refine ⟨rfl, rfl, rfl, rfl, ?_⟩
      decide
    · decide
  · decide

/-- Claim C5 (amended): for matrices in CSC form (well-formed, strictly
ascending row indices per column, row indices within the shape), the row
indices within each column slice are strictly ascending after `sortRange`
on any column (which is then a no-op) and after `verticalConcat`;
`sortRangeByKeys` orders a slice by the key comparator instead and need not
preserve ascending row order. -/
theorem strict_ascending_amended (A top bottom : SparseMatrix)
    (hwa : A.WF) (hsa : strictCols A)
    (hwt : top.WF) (hwb : bottom.WF) (hc : top.numCols = bottom.numCols)
    (hst : strictCols top) (hsb : strictCols bottom)
    (hrt : inRange top) (hrb : inRange bottom) :
    (∀ j, j < A.numCols → strictCols (sortColumn A j)) ∧
      strictCols (vertcatResult top bottom) := by
  constructor
  · intro j hj
    rw [sortColumn_eq_self A hwa hsa j hj]
    exact hsa
  · intro j hj
    have hj' : j < top.numCols := hj
    rw [rowSlice_vertcatResult top bottom j hj', vertcatColumn, List.map_append,
      map_fst_colEntries top hwt j]
    have hbot : ((colEntries bottom j).map
        (fun p => (p.1 + (top.numRows : Int), p.2))).map Prod.fst =
        (rowSlice bottom j).map (fun r => r + (top.numRows : Int)) := by
      rw [List.map_map, ← map_fst_colEntries bottom hwb j, List.map_map]
      rfl
    rw [hbot, List.pairwise_append]
    refine ⟨hst j hj', ?_, ?_⟩
    · rw [List.pairwise_map]
      exact (hsb j (by omega)).imp (fun hab => by omega)
    · intro a ha b hb
      obtain ⟨r, hr, hbe⟩ := List.mem_map.mp hb
      have h1 := (hrt j hj') a ha
      have h2 := (hrb j (by omega)) r hr
      rw [← hbe]
      omega

theorem strict_ascending_amended_witness :
    (∀ j, j < (1 : Nat) →
      strictCols (sortColumn
        { values := [1, 1], rowIndex := [1, 2], colPointer := [0, 2], numRows := 3, numCols := 1 } j)) ∧
      strictCols (vertcatResult
        { values := [1], rowIndex := [0], colPointer := [0, 1], numRows := 1, numCols := 1 }
        { values := [2], rowIndex := [0], colPointer := [0, 1], numRows := 1, numCols := 1 }) :=
  strict_ascending_amended
    { values := [1, 1], rowIndex := [1, 2], colPointer := [0, 2], numRows := 3, numCols := 1 }
    { values := [1], rowIndex := [0], colPointer := [0, 1], numRows := 1, numCols := 1 }
    { values := [2], rowIndex := [0], colPointer := [0, 1], numRows := 1, numCols := 1 }
    (by refine ⟨rfl, rfl, rfl, rfl, ?_⟩; decide) (by decide)
    (by refine ⟨rfl, rfl, rfl, rfl, ?_⟩; decide) (by refine ⟨rfl, rfl, rfl, rfl, ?_⟩; decide)
    rfl (by decide) (by decide) (by decide) (by decide)

theorem getD_drop {α : Type _} (l : List α) (n i : Nat) (d : α) :
    (l.drop n).getD i d = l.getD (n + i) d := by
  rw [List.getD_eq_getElem?_getD, List.getElem?_drop, List.getD_eq_getElem?_getD]

theorem getD_take {α : Type _} (l : List α) (n i : Nat) (h : i < n) (d : α) :
    (l.take n).getD i d = l.getD i d := by
  rw [List.getD_eq_getElem?_getD, List.getElem?_take_of_lt h, List.getD_eq_getElem?_getD]

theorem getD_append_left {α : Type _} (l₁ l₂ : List α) (i : Nat) (h : i < l₁.length) (d : α) :
    (l₁ ++ l₂).getD i d = l₁.getD i d := by
  rw [List.getD_eq_getElem?_getD, List.getElem?_append_left h, List.getD_eq_getElem?_getD]

theorem getD_append_right_self {α : Type _} (l₁ l₂ : List α) (d : α) :
    (l₁ ++ l₂).getD l₁.length d = l₂.getD 0 d := by
  rw [List.getD_eq_getElem?_getD, List.getElem?_append_right (le_refl l₁.length),
    Nat.sub_self, List.getD_eq_getElem?_getD]

theorem getD_map_lt {α β : Type _} (f : α → β) :
    ∀ (l : List α) (i : Nat), i < l.length → ∀ (d : β) (d₀ : α),
      (l.map f).getD i d = f (l.getD i d₀) := by
  intro l
  induction l with
  | nil => intro i hi; exact absurd hi (by simp)
  | cons a l ih =>
    intro i hi d d₀
    cases i with
    | zero => rfl
    | succ i => exact ih i (by simpa using hi) d d₀

theorem getD_range (n j : Nat) (h : j < n) (d : Nat) : (List.range n).getD j d = j := by
  rw [List.getD_eq_getElem?_getD, List.getElem?_range h]
  rfl

theorem drop_succ_eq {α : Type _} : ∀ (l : List α) (k : Nat), l.drop (k + 1) = (l.drop k).drop 1 := by
  intro l
  induction l with
  | nil => intro k; simp
  | cons a l ih =>
    intro k
    cases k with
    | zero => rfl
    | succ k => rw [List.drop_succ_cons, ih k, List.drop_succ_cons]

theorem list_range_map_sum {M : Type _} [AddCommMonoid M] (n : Nat) (f : Nat → M) :
    ((List.range n).map f).sum = ∑ i ∈ Finset.range n, f i := by
  induction n with
  | zero => simp
  | succ n ih =>
    rw [List.range_succ, List.map_append, List.sum_append, Finset.sum_range_succ, ih]
    simp

theorem map_sum_eq_range_sum {β M : Type _} [AddCommMonoid M] (d : β) :
    ∀ (l : List β) (f : β → M),
      (l.map f).sum = ∑ i ∈ Finset.range l.length, f (l.getD i d) := by
  intro l
  induction l with
  | nil => intro f; simp
  | cons a l ih =>
    intro f
    rw [List.map_cons, List.sum_cons, List.length_cons, Finset.sum_range_succ']
    simp only [List.getD_cons_succ, List.getD_cons_zero]
    rw [ih f, add_comm]

theorem zip_map_sum_getD {α β : Type _} (f : α → β → ℚ) (dα : α) (dβ : β) :
    ∀ (l₁ : List α) (l₂ : List β), l₁.length = l₂.length →
      ((l₁.zip l₂).map (fun p => f p.1 p.2)).sum =
        ∑ t ∈ Finset.range l₁.length, f (l₁.getD t dα) (l₂.getD t dβ) := by
  intro l₁
  induction l₁ with
  | nil => intro l₂ h; simp
  | cons a l₁ ih =>
    intro l₂ h
    cases l₂ with
    | nil => exact absurd h (by simp)
    | cons b l₂ =>
      rw [List.zip_cons_cons, List.map_cons, List.sum_cons, List.length_cons,
        Finset.sum_range_succ']
      simp only [List.getD_cons_succ, List.getD_cons_zero]
      rw [ih l₂ (by simpa using h), add_comm]

theorem dotF_finsum_left (m : Nat) (s : Finset Nat) (f : Nat → Nat → ℚ) (g : Nat → ℚ) :
    dotF m (∑ k ∈ s, f k) g = ∑ k ∈ s, dotF m (f k) g := by
  rw [dotF]
  calc ∑ i ∈ Finset.range m, (∑ k ∈ s, f k) i * g i
      = ∑ i ∈ Finset.range m, ∑ k ∈ s, f k i * g i := by
        refine Finset.sum_congr rfl ?_
        intro i _
        rw [Finset.sum_apply i s f, Finset.sum_mul]
    _ = ∑ k ∈ s, ∑ i ∈ Finset.range m, f k i * g i := Finset.sum_comm
    _ = ∑ k ∈ s, dotF m (f k) g := rfl

theorem pairwise_orth_getD (U : List (List ℚ))
    (hpw : List.Pairwise (fun a b => dotProd b a = 0) U)
    (a b : Nat) (ha : a < U.length) (hb : b < U.length) (hne : a ≠ b) :
    dotProd (U.getD a []) (U.getD b []) = 0 := by
  rcases Nat.lt_or_ge a b with h | h
  · have horth := List.pairwise_iff_getElem.mp hpw a b ha hb h
    rw [List.getD_eq_getElem U [] ha, List.getD_eq_getElem U [] hb, dotProd_comm]
    exact horth
  · have hlt : b < a := by omega
    have horth := List.pairwise_iff_getElem.mp hpw b a hb ha hlt
    rw [List.getD_eq_getElem U [] ha, List.getD_eq_getElem U [] hb]
    exact horth

theorem length_vecAdd (u v : List ℚ) : (vecAdd u v).length = min u.length v.length := by
  rw [vecAdd, List.length_map, List.length_zip]

theorem length_foldr_vecAdd (m : Nat) :
    ∀ ts : List (List ℚ), (∀ t ∈ ts, t.length = m) →
      (ts.foldr vecAdd (List.replicate m 0)).length = m := by
  intro ts
  induction ts with
  | nil => intro _; rw [List.foldr_nil, List.length_replicate]
  | cons t ts ih =>
    intro h
    rw [List.foldr_cons, length_vecAdd, ih (fun q hq => h q (List.mem_cons_of_mem t hq)),
      h t (List.mem_cons_self t ts), Nat.min_self]

theorem toF_foldr_vecAdd (m : Nat) :
    ∀ ts : List (List ℚ), (∀ t ∈ ts, t.length = m) →
      toF (ts.foldr vecAdd (List.replicate m 0)) = (ts.map toF).sum := by
  intro ts
  induction ts with
  | nil => intro _; rw [List.foldr_nil, toF_replicate, List.map_nil, List.sum_nil]
  | cons t ts ih =>
    intro h
    rw [List.foldr_cons, toF_vecAdd t _ (by
        rw [h t (List.mem_cons_self t ts),
          length_foldr_vecAdd m ts (fun q hq => h q (List.mem_cons_of_mem t hq))]),
      List.map_cons, List.sum_cons, ih (fun q hq => h q (List.mem_cons_of_mem t hq))]

theorem length_matVec (A : SparseMatrix) (x : List ℚ) : (matVec A x).length = A.numRows := by
  rw [matVec]
  refine length_foldr_vecAdd A.numRows _ ?_
  intro t ht
  obtain ⟨j, hj, hte⟩ := List.mem_map.mp ht
  rw [← hte, length_vecScale, length_colDense]

theorem toF_matVec (A : SparseMatrix) (x : List ℚ) :
    toF (matVec A x) =
      ((List.range A.numCols).map (fun j => x.getD j 0 • toF (colDense A j))).sum := by
  rw [matVec, toF_foldr_vecAdd A.numRows _ (by
      intro t ht
      obtain ⟨j, hj, hte⟩ := List.mem_map.mp ht
      rw [← hte, length_vecScale, length_colDense]), List.map_map]
  refine congrArg List.sum (List.map_congr_left ?_)
  intro j _
  exact toF_vecScale _ _

theorem projResid_classical (m : Nat) :
    ∀ (U : List (List ℚ)) (v : List ℚ), v.length = m → (∀ u ∈ U, u.length = m) →
      List.Pairwise (fun a b => dotProd b a = 0) U →
      toF (projResid U v) =
        toF v - (U.map (fun u => (dotProd v u / dotProd u u) • toF u)).sum := by
  intro U
  induction U with
  | nil =>
    intro v _ _ _
    rw [show projResid [] v = v from rfl, List.map_nil, List.sum_nil, sub_zero]
  | cons u₀ U ih =>
    intro v hv hU hpw
    rw [projResid_cons]
    have hwlen : (vecSub v (vecScale (dotProd v u₀ / dotProd u₀ u₀) u₀)).length = m := by
      rw [length_vecSub, length_vecScale, hv, hU u₀ (List.mem_cons_self u₀ U)]
      exact Nat.min_self m
    rw [ih _ hwlen (fun q hq => hU q (List.mem_cons_of_mem u₀ hq))
      (List.pairwise_cons.mp hpw).2]
    have hcoe : ∀ u ∈ U,
        dotProd (vecSub v (vecScale (dotProd v u₀ / dotProd u₀ u₀) u₀)) u = dotProd v u := by
      intro u hu
      rw [dotProd_vecSub_left v _ u
          (by rw [length_vecScale, hv, hU u₀ (List.mem_cons_self u₀ U)]),
        dotProd_vecScale_left, dotProd_comm u₀ u, (List.pairwise_cons.mp hpw).1 u hu,
        mul_zero, sub_zero]
    have hmapeq : U.map (fun u =>
        (dotProd (vecSub v (vecScale (dotProd v u₀ / dotProd u₀ u₀) u₀)) u / dotProd u u) •
          toF u) =
        U.map (fun u => (dotProd v u / dotProd u u) • toF u) :=
      List.map_congr_left (fun u hu => by rw [hcoe u hu])
    rw [hmapeq, toF_vecSub v _
        (by rw [length_vecScale, hv, hU u₀ (List.mem_cons_self u₀ U)]),
      toF_vecScale, List.map_cons, List.sum_cons, sub_sub]

theorem backSubAux_spec (R : List (List ℚ)) (pb : List ℚ) :
    ∀ (k : Nat) (acc : List ℚ),
      (backSubAux R pb k acc).length = k + acc.length ∧
      (backSubAux R pb k acc).drop k = acc ∧
      ∀ i, i < k →
        (backSubAux R pb k acc).getD i 0 =
          (pb.getD i 0 -
            (((R.drop (i + 1)).zip ((backSubAux R pb k acc).drop (i + 1))).map
              (fun p => p.1.getD i 0 * p.2)).sum) /
            (R.getD i []).getD i 0 := by
  intro k
  induction k with
  | zero =>
    intro acc
    refine ⟨?_, ?_, ?_⟩
    · show acc.length = 0 + acc.length
      rw [Nat.zero_add]
    · show acc.drop 0 = acc
      rw [List.drop_zero]
    · intro i hi
      exact absurd hi (by omega)
  | succ k ih =>
    intro acc
    have hunf : backSubAux R pb (k + 1) acc = backSubAux R pb k
        (((pb.getD k 0 -
            (((R.drop (k + 1)).zip acc).map (fun p => p.1.getD k 0 * p.2)).sum) /
          (R.getD k []).getD k 0) :: acc) := rfl
    obtain ⟨hlen, hdrop, heq⟩ := ih (((pb.getD k 0 -
        (((R.drop (k + 1)).zip acc).map (fun p => p.1.getD k 0 * p.2)).sum) /
      (R.getD k []).getD k 0) :: acc)
    rw [hunf]
    refine ⟨by rw [hlen, List.length_cons]; omega, ?_, ?_⟩
    · rw [drop_succ_eq _ k, hdrop]
      rfl
    · intro i hi
      by_cases hik : i < k
      · exact heq i hik
      · have hieq : i = k := by omega
        subst hieq
        set nv := (pb.getD i 0 -
            (((R.drop (i + 1)).zip acc).map (fun p => p.1.getD i 0 * p.2)).sum) /
          (R.getD i []).getD i 0 with hnv
        set bout := backSubAux R pb i (nv :: acc) with hbout
        have h0 : (bout.drop i).getD 0 0 = bout.getD i 0 := by
          rw [getD_drop, Nat.add_zero]
        rw [hdrop] at h0
        have hgd : bout.getD i 0 = nv := by
          rw [← h0]
          rfl
        rw [hgd, drop_succ_eq bout i, hdrop]
        rfl

theorem backSub_entries (n : Nat) (U : List (List ℚ)) (vcol : Nat → List ℚ)
    (R : List (List ℚ)) (pb : List ℚ)
    (hUlen : U.length = n)
    (hRlen : R.length = n)
    (hRcol : ∀ k, k < n → R.getD k [] =
      (U.take k).map (fun u => dotProd (vcol k) u / dotProd u u) ++ [1]) :
    (backSub R pb).length = n ∧
    ∀ i, i < n → (backSub R pb).getD i 0 = pb.getD i 0 -
      ∑ k ∈ Finset.Ico (i + 1) n,
        (dotProd (vcol k) (U.getD i []) / dotProd (U.getD i []) (U.getD i [])) *
          (backSub R pb).getD k 0 := by
  obtain ⟨hlen, hdrop, heq⟩ := backSubAux_spec R pb R.length []
  have hblen : (backSub R pb).length = n := by
    rw [backSub, hlen, List.length_nil, Nat.add_zero, hRlen]
  refine ⟨hblen, ?_⟩
  intro i hi
  have hieq := heq i (by rw [hRlen]; exact hi)
  have hRii : (R.getD i []).getD i 0 = 1 := by
    rw [hRcol i hi]
    have hmlen : ((U.take i).map (fun u => dotProd (vcol i) u / dotProd u u)).length = i := by
      rw [List.length_map, List.length_take, hUlen]
      omega
    have hb := getD_append_right_self
      ((U.take i).map (fun u => dotProd (vcol i) u / dotProd u u)) [1] 0
    rw [hmlen] at hb
    rw [hb]
    rfl
  have hzip : (((R.drop (i + 1)).zip ((backSubAux R pb R.length []).drop (i + 1))).map
      (fun p => p.1.getD i 0 * p.2)).sum =
      ∑ k ∈ Finset.Ico (i + 1) n,
        (dotProd (vcol k) (U.getD i []) / dotProd (U.getD i []) (U.getD i [])) *
          (backSubAux R pb R.length []).getD k 0 := by
    rw [zip_map_sum_getD (fun a b => a.getD i 0 * b) [] 0 _ _ (by
      rw [List.length_drop, List.length_drop, hlen, List.length_nil]
      omega)]
    rw [Finset.sum_Ico_eq_sum_range
      (fun k => (dotProd (vcol k) (U.getD i []) / dotProd (U.getD i []) (U.getD i [])) *
        (backSubAux R pb R.length []).getD k 0) (i + 1) n]
    have hdl : (R.drop (i + 1)).length = n - (i + 1) := by rw [List.length_drop, hRlen]
    rw [hdl]
    refine Finset.sum_congr rfl ?_
    intro t ht
    rw [Finset.mem_range] at ht
    rw [getD_drop R (i + 1) t [], getD_drop (backSubAux R pb R.length []) (i + 1) t 0]
    have hk : i + 1 + t < n := by omega
    rw [hRcol (i + 1 + t) hk]
    have hmlen : ((U.take (i + 1 + t)).map
        (fun u => dotProd (vcol (i + 1 + t)) u / dotProd u u)).length = i + 1 + t := by
      rw [List.length_map, List.length_take, hUlen]
      omega
    rw [getD_append_left _ _ i (by rw [hmlen]; omega) 0]
    rw [getD_map_lt (fun u => dotProd (vcol (i + 1 + t)) u / dotProd u u) _ i
      (by rw [List.length_take, hUlen]; omega) 0 []]
    rw [getD_take U (i + 1 + t) i (by omega) []]
  rw [backSub, hieq, hRii, div_one, hzip]

theorem gsPrefix_succ (A : SparseMatrix) (k : Nat) :
    gsPrefix A (k + 1) = gsAccum (gsPrefix A k) (k, colDense A k) := by
  rw [gsPrefix, gsPrefix, List.range_succ, List.map_append, List.foldl_append]
  rfl

theorem gsRun_eq_gsPrefix (A : SparseMatrix) : gsRun A = gsPrefix A A.numCols := rfl

theorem gsPrefix_inv (A : SparseMatrix) (k : Nat) :
    GSInv A.numRows ((List.range k).map (colDense A)) (gsPrefix A k) := by
  have h := gsInv_fold A.numRows ((List.range k).map (fun j => (j, colDense A j))) []
    ([], [], []) (gsInv_nil A.numRows) (by
      intro p hp
      obtain ⟨j, hj, hpe⟩ := List.mem_map.mp hp
      rw [← hpe]
      exact length_colDense A j)
  rw [List.nil_append, List.map_map] at h
  exact h

theorem gsPrefix_full (A : SparseMatrix)
    (hli : LinearIndependent ℚ (fun j : Fin A.numCols => toF (colDense A j.val))) :
    ∀ k, k ≤ A.numCols →
      (gsPrefix A k).1.length = k ∧ (gsPrefix A k).2.2.length = k ∧
      (∀ l, l < k → (gsPrefix A k).1.getD l [] =
        projResid ((gsPrefix A k).1.take l) (colDense A l)) ∧
      (∀ l, l < k → (gsPrefix A k).2.2.getD l [] =
        ((gsPrefix A k).1.take l).map (fun u => dotProd (colDense A l) u / dotProd u u) ++
          [1]) := by
  intro k
  induction k with
  | zero =>
    intro _
    exact ⟨rfl, rfl, fun l hl => absurd hl (by omega), fun l hl => absurd hl (by omega)⟩
  | succ k ih =>
    intro hk1
    have hk : k ≤ A.numCols := by omega
    have hkn : k < A.numCols := by omega
    obtain ⟨hU, hR, hpiv, hrfac⟩ := ih hk
    obtain ⟨hlen1, hnz1, hpw1, hPspan1, hUspan1⟩ := gsPrefix_inv A k
    have hwnz : isZeroVec (projResid (gsPrefix A k).1 (colDense A k)) = false := by
      by_contra hcon
      rw [Bool.not_eq_false] at hcon
      have hsp : toF (colDense A k) ∈ Submodule.span ℚ (toFSet (gsPrefix A k).1) := by
        have h1 := span_resid A.numRows (gsPrefix A k).1 (colDense A k)
          (length_colDense A k) hlen1
        have h2 : toF (colDense A k) = toF (colDense A k) -
            toF (projResid (gsPrefix A k).1 (colDense A k)) := by
          rw [toF_eq_zero_of_isZeroVec _ hcon, sub_zero]
        rw [h2]
        exact h1
      have hset : toFSet ((List.range k).map (colDense A)) ⊆
          (fun j : Fin A.numCols => toF (colDense A j.val)) ''
            {i : Fin A.numCols | i.val < k} := by
        rintro x ⟨u, hu, rfl⟩
        obtain ⟨j, hj, hue⟩ := List.mem_map.mp hu
        rw [List.mem_range] at hj
        refine ⟨⟨j, by omega⟩, hj, ?_⟩
        rw [← hue]
      have hle : Submodule.span ℚ (toFSet (gsPrefix A k).1) ≤
          Submodule.span ℚ ((fun j : Fin A.numCols => toF (colDense A j.val)) ''
            {i : Fin A.numCols | i.val < k}) := by
        rw [Submodule.span_le]
        intro y hy
        obtain ⟨u, hu, hye⟩ := hy
        rw [← hye]
        exact Submodule.span_mono hset (hUspan1 u hu)
      have hnm : (fun j : Fin A.numCols => toF (colDense A j.val)) ⟨k, hkn⟩ ∉
          Submodule.span ℚ ((fun j : Fin A.numCols => toF (colDense A j.val)) ''
            {i : Fin A.numCols | i.val < k}) :=
        hli.not_mem_span_image (fun hc => lt_irrefl k hc)
      exact hnm (hle hsp)
    rw [gsPrefix_succ, gsAccum_pair, if_neg (by rw [hwnz]; exact Bool.false_ne_true)]
    refine ⟨?_, ?_, ?_, ?_⟩
    · show ((gsPrefix A k).1 ++ [projResid (gsPrefix A k).1 (colDense A k)]).length = k + 1
      rw [List.length_append, hU, List.length_cons, List.length_nil]
    · show ((gsPrefix A k).2.2 ++ [(gsPrefix A k).1.map
          (fun u => dotProd (colDense A k) u / dotProd u u) ++ [1]]).length = k + 1
      rw [List.length_append, hR, List.length_cons, List.length_nil]
    · intro l hl
      show ((gsPrefix A k).1 ++ [projResid (gsPrefix A k).1 (colDense A k)]).getD l [] =
        projResid (((gsPrefix A k).1 ++
          [projResid (gsPrefix A k).1 (colDense A k)]).take l) (colDense A l)
      by_cases hlk : l < k
      · rw [getD_append_left _ _ l (by rw [hU]; exact hlk) [],
          List.take_append_of_le_length (by rw [hU]; omega)]
        exact hpiv l hlk
      · have hlek : l = k := by omega
        subst hlek
        have htk : ((gsPrefix A l).1 ++
            [projResid (gsPrefix A l).1 (colDense A l)]).take l = (gsPrefix A l).1 := by
          rw [List.take_append_of_le_length hU.ge, List.take_of_length_le hU.le]
        have hgd : ((gsPrefix A l).1 ++
            [projResid (gsPrefix A l).1 (colDense A l)]).getD l [] =
            projResid (gsPrefix A l).1 (colDense A l) := by
          have hb := getD_append_right_self (gsPrefix A l).1
            [projResid (gsPrefix A l).1 (colDense A l)] []
          rw [hU] at hb
          rw [hb]
          rfl
        rw [hgd, htk]
    · intro l hl
      show ((gsPrefix A k).2.2 ++ [(gsPrefix A k).1.map
          (fun u => dotProd (colDense A k) u / dotProd u u) ++ [1]]).getD l [] =
        (((gsPrefix A k).1 ++
          [projResid (gsPrefix A k).1 (colDense A k)]).take l).map
          (fun u => dotProd (colDense A l) u / dotProd u u) ++ [1]
      by_cases hlk : l < k
      · rw [getD_append_left _ _ l (by rw [hR]; exact hlk) [],
          List.take_append_of_le_length (by rw [hU]; omega)]
        exact hrfac l hlk
      · have hlek : l = k := by omega
        subst hlek
        have htk : ((gsPrefix A l).1 ++
            [projResid (gsPrefix A l).1 (colDense A l)]).take l = (gsPrefix A l).1 := by
          rw [List.take_append_of_le_length hU.ge, List.take_of_length_le hU.le]
        have hgd : ((gsPrefix A l).2.2 ++ [(gsPrefix A l).1.map
            (fun u => dotProd (colDense A l) u / dotProd u u) ++ [1]]).getD l [] =
            (gsPrefix A l).1.map (fun u => dotProd (colDense A l) u / dotProd u u) ++ [1] := by
          have hb := getD_append_right_self (gsPrefix A l).2.2
            [(gsPrefix A l).1.map (fun u => dotProd (colDense A l) u / dotProd u u) ++ [1]] []
          rw [hR] at hb
          rw [hb]
          rfl
        rw [hgd, htk]

theorem gsPrefix_decomp (A : SparseMatrix)
    (hli : LinearIndependent ℚ (fun j : Fin A.numCols => toF (colDense A j.val))) :
    ∀ k, k < A.numCols →
      toF (colDense A k) = toF ((gsPrefix A A.numCols).1.getD k []) +
        ∑ l ∈ Finset.range k,
          (dotProd (colDense A k) ((gsPrefix A A.numCols).1.getD l []) /
            dotProd ((gsPrefix A A.numCols).1.getD l [])
              ((gsPrefix A A.numCols).1.getD l [])) •
            toF ((gsPrefix A A.numCols).1.getD l []) := by
  obtain ⟨hUlen, hRlen, hpiv, hrfac⟩ := gsPrefix_full A hli A.numCols (le_refl A.numCols)
  obtain ⟨hlen1, hnz1, hpw1, hPspan1, hUspan1⟩ := gsPrefix_inv A A.numCols
  intro k hk
  have hpk := hpiv k hk
  have htl : ∀ u ∈ (gsPrefix A A.numCols).1.take k, u.length = A.numRows :=
    fun u hu => hlen1 u (List.mem_of_mem_take hu)
  have hpwt : List.Pairwise (fun a b => dotProd b a = 0) ((gsPrefix A A.numCols).1.take k) :=
    hpw1.sublist (List.take_sublist k (gsPrefix A A.numCols).1)
  have hcl := projResid_classical A.numRows ((gsPrefix A A.numCols).1.take k)
    (colDense A k) (length_colDense A k) htl hpwt
  rw [← hpk] at hcl
  have hktake : ((gsPrefix A A.numCols).1.take k).length = k := by
    rw [List.length_take, hUlen]
    omega
  have hms := map_sum_eq_range_sum ([] : List ℚ) ((gsPrefix A A.numCols).1.take k)
    (fun u => (dotProd (colDense A k) u / dotProd u u) • toF u)
  rw [hktake] at hms
  rw [hms] at hcl
  have hsc : ∀ l ∈ Finset.range k,
      (fun u => (dotProd (colDense A k) u / dotProd u u) • toF u)
        (((gsPrefix A A.numCols).1.take k).getD l []) =
      (dotProd (colDense A k) ((gsPrefix A A.numCols).1.getD l []) /
        dotProd ((gsPrefix A A.numCols).1.getD l []) ((gsPrefix A A.numCols).1.getD l [])) •
        toF ((gsPrefix A A.numCols).1.getD l []) := by
    intro l hl
    rw [Finset.mem_range] at hl
    rw [getD_take _ _ l hl []]
  rw [Finset.sum_congr rfl hsc] at hcl
  exact sub_eq_iff_eq_add.mp hcl.symm

theorem normal_eq_pivots (m n : Nat) (U : List (List ℚ)) (vcol : Nat → List ℚ)
    (bc pb xh : List ℚ)
    (hUlen : U.length = n)
    (hUm : ∀ u ∈ U, u.length = m)
    (hUnz : ∀ u ∈ U, isZeroVec u = false)
    (hpw : List.Pairwise (fun a b => dotProd b a = 0) U)
    (hdec : ∀ k, k < n → toF (vcol k) = toF (U.getD k []) +
      ∑ l ∈ Finset.range k,
        (dotProd (vcol k) (U.getD l []) / dotProd (U.getD l []) (U.getD l [])) •
          toF (U.getD l []))
    (hpb : ∀ i, i < n → pb.getD i 0 =
      dotProd bc (U.getD i []) / dotProd (U.getD i []) (U.getD i []))
    (hbc : bc.length = m)
    (hxeq : ∀ i, i < n → xh.getD i 0 = pb.getD i 0 -
      ∑ k ∈ Finset.Ico (i + 1) n,
        (dotProd (vcol k) (U.getD i []) / dotProd (U.getD i []) (U.getD i [])) *
          xh.getD k 0) :
    ∀ i, i < n → dotF m
      ((∑ k ∈ Finset.range n, xh.getD k 0 • toF (vcol k)) - toF bc)
      (toF (U.getD i [])) = 0 := by
  intro i hi
  have hiU : i < U.length := by rw [hUlen]; exact hi
  have hUi : U.getD i [] ∈ U := by
    rw [List.getD_eq_getElem U [] hiU]
    exact List.getElem_mem hiU
  have hdine : dotProd (U.getD i []) (U.getD i []) ≠ 0 :=
    dotProd_self_ne_zero _ (hUnz _ hUi)
  have hFdot : ∀ k, k < n → dotF m (toF (vcol k)) (toF (U.getD i [])) =
      (if k = i then dotProd (U.getD i []) (U.getD i []) else 0) +
      (if i < k then dotProd (vcol k) (U.getD i []) else 0) := by
    intro k hk
    have hkU : k < U.length := by rw [hUlen]; exact hk
    have hUk : U.getD k [] ∈ U := by
      rw [List.getD_eq_getElem U [] hkU]
      exact List.getElem_mem hkU
    rw [hdec k hk, dotF_add_left, dotF_finsum_left]
    have hfirst : dotF m (toF (U.getD k [])) (toF (U.getD i [])) =
        if k = i then dotProd (U.getD i []) (U.getD i []) else 0 := by
      by_cases hki : k = i
      · subst hki
        rw [if_pos rfl, ← dotProd_eq_dotF m _ _ (hUm _ hUk) (hUm _ hUk)]
      · rw [if_neg hki, ← dotProd_eq_dotF m _ _ (hUm _ hUk) (hUm _ hUi)]
        exact pairwise_orth_getD U hpw k i hkU hiU hki
    have hsum2 : ∑ l ∈ Finset.range k, dotF m
        ((dotProd (vcol k) (U.getD l []) / dotProd (U.getD l []) (U.getD l [])) •
          toF (U.getD l [])) (toF (U.getD i [])) =
        if i < k then dotProd (vcol k) (U.getD i []) else 0 := by
      by_cases hik : i < k
      · rw [if_pos hik]
        rw [Finset.sum_eq_single_of_mem i (Finset.mem_range.mpr hik) ?_]
        · rw [dotF_smul_left, ← dotProd_eq_dotF m _ _ (hUm _ hUi) (hUm _ hUi),
            div_mul_cancel₀ _ hdine]
        · intro l hl hline
          have hlU : l < U.length := by
            rw [Finset.mem_range] at hl
            rw [hUlen]
            omega
          rw [dotF_smul_left, ← dotProd_eq_dotF m _ _ (by
              refine hUm _ ?_
              rw [List.getD_eq_getElem U [] hlU]
              exact List.getElem_mem hlU) (hUm _ hUi),
            pairwise_orth_getD U hpw l i hlU hiU hline, mul_zero]
      · rw [if_neg hik]
        refine Finset.sum_eq_zero ?_
        intro l hl
        have hlU : l < U.length := by
          rw [Finset.mem_range] at hl
          rw [hUlen]
          omega
        have hline : l ≠ i := by
          rw [Finset.mem_range] at hl
          omega
        rw [dotF_smul_left, ← dotProd_eq_dotF m _ _ (by
            refine hUm _ ?_
            rw [List.getD_eq_getElem U [] hlU]
            exact List.getElem_mem hlU) (hUm _ hUi),
          pairwise_orth_getD U hpw l i hlU hiU hline, mul_zero]
    rw [hfirst, hsum2]
  have hS : dotF m (∑ k ∈ Finset.range n, xh.getD k 0 • toF (vcol k)) (toF (U.getD i [])) =
      xh.getD i 0 * dotProd (U.getD i []) (U.getD i []) +
      ∑ k ∈ Finset.Ico (i + 1) n, xh.getD k 0 * dotProd (vcol k) (U.getD i []) := by
    rw [dotF_finsum_left]
    have hterm : ∀ k ∈ Finset.range n,
        dotF m (xh.getD k 0 • toF (vcol k)) (toF (U.getD i [])) =
        (if k = i then xh.getD k 0 * dotProd (U.getD i []) (U.getD i []) else 0) +
        (if i < k then xh.getD k 0 * dotProd (vcol k) (U.getD i []) else 0) := by
      intro k hk
      rw [Finset.mem_range] at hk
      rw [dotF_smul_left, hFdot k hk, mul_add, mul_ite, mul_zero, mul_ite, mul_zero]
    rw [Finset.sum_congr rfl hterm, Finset.sum_add_distrib]
    congr 1
    · rw [Finset.sum_eq_single_of_mem i (Finset.mem_range.mpr hi) ?_]
      · rw [if_pos rfl]
      · intro l _ hline
        rw [if_neg hline]
    · rw [← Finset.sum_filter]
      have hfe : (Finset.range n).filter (fun k => i < k) = Finset.Ico (i + 1) n := by
        ext k
        simp only [Finset.mem_filter, Finset.mem_range, Finset.mem_Ico]
        omega
      rw [hfe]
  have hbcdot : dotF m (toF bc) (toF (U.getD i [])) = dotProd bc (U.getD i []) :=
    (dotProd_eq_dotF m bc _ hbc (hUm _ hUi)).symm
  rw [dotF_sub_left, hS, hbcdot, hxeq i hi, hpb i hi]
  have hexp : (dotProd bc (U.getD i []) / dotProd (U.getD i []) (U.getD i []) -
      ∑ k ∈ Finset.Ico (i + 1) n,
        (dotProd (vcol k) (U.getD i []) / dotProd (U.getD i []) (U.getD i [])) *
          xh.getD k 0) * dotProd (U.getD i []) (U.getD i []) =
      dotProd bc (U.getD i []) -
      ∑ k ∈ Finset.Ico (i + 1) n, dotProd (vcol k) (U.getD i []) * xh.getD k 0 := by
    rw [sub_mul, div_mul_cancel₀ _ hdine, Finset.sum_mul]
    congr 1
    refine Finset.sum_congr rfl ?_
    intro k _
    rw [mul_right_comm, div_mul_cancel₀ _ hdine]
  rw [hexp]
  have hsc : ∑ k ∈ Finset.Ico (i + 1) n, xh.getD k 0 * dotProd (vcol k) (U.getD i []) =
      ∑ k ∈ Finset.Ico (i + 1) n, dotProd (vcol k) (U.getD i []) * xh.getD k 0 :=
    Finset.sum_congr rfl (fun k _ => mul_comm _ _)
  rw [hsc]
  ring

theorem lsq_unique_abstract (m n : Nat) (vcol : Nat → List ℚ) (bc : List ℚ)
    (hvl : ∀ k, k < n → (vcol k).length = m)
    (hli : LinearIndependent ℚ (fun j : Fin n => toF (vcol j.val)))
    (x₁ x₂ : List ℚ) (h1l : x₁.length = n) (h2l : x₂.length = n)
    (h1 : ∀ j, j < n → dotF m
      ((∑ k ∈ Finset.range n, x₁.getD k 0 • toF (vcol k)) - toF bc) (toF (vcol j)) = 0)
    (h2 : ∀ j, j < n → dotF m
      ((∑ k ∈ Finset.range n, x₂.getD k 0 • toF (vcol k)) - toF bc) (toF (vcol j)) = 0) :
    x₁ = x₂ := by
  have hdel : ∀ j, j < n → dotF m
      ((∑ k ∈ Finset.range n, x₁.getD k 0 • toF (vcol k)) -
        (∑ k ∈ Finset.range n, x₂.getD k 0 • toF (vcol k))) (toF (vcol j)) = 0 := by
    intro j hj
    have hd : (∑ k ∈ Finset.range n, x₁.getD k 0 • toF (vcol k)) -
        (∑ k ∈ Finset.range n, x₂.getD k 0 • toF (vcol k)) =
        ((∑ k ∈ Finset.range n, x₁.getD k 0 • toF (vcol k)) - toF bc) -
        ((∑ k ∈ Finset.range n, x₂.getD k 0 • toF (vcol k)) - toF bc) := by
      rw [sub_sub_sub_cancel_right]
    rw [hd, dotF_sub_left, h1 j hj, h2 j hj, sub_zero]
  have hdiff : (∑ k ∈ Finset.range n, x₁.getD k 0 • toF (vcol k)) -
      (∑ k ∈ Finset.range n, x₂.getD k 0 • toF (vcol k)) =
      ∑ k ∈ Finset.range n, (x₁.getD k 0 - x₂.getD k 0) • toF (vcol k) := by
    rw [← Finset.sum_sub_distrib]
    refine Finset.sum_congr rfl ?_
    intro k _
    rw [sub_smul]
  have hspan : (∑ k ∈ Finset.range n, x₁.getD k 0 • toF (vcol k)) -
      (∑ k ∈ Finset.range n, x₂.getD k 0 • toF (vcol k)) ∈
      Submodule.span ℚ (Set.range (fun j : Fin n => toF (vcol j.val))) := by
    rw [hdiff]
    refine Submodule.sum_mem _ ?_
    intro k hk
    rw [Finset.mem_range] at hk
    exact Submodule.smul_mem _ _ (Submodule.subset_span ⟨⟨k, hk⟩, rfl⟩)
  have hDz : dotF m
      ((∑ k ∈ Finset.range n, x₁.getD k 0 • toF (vcol k)) -
        (∑ k ∈ Finset.range n, x₂.getD k 0 • toF (vcol k)))
      ((∑ k ∈ Finset.range n, x₁.getD k 0 • toF (vcol k)) -
        (∑ k ∈ Finset.range n, x₂.getD k 0 • toF (vcol k))) = 0 := by
    refine dotF_eq_zero_of_mem_span m _ _ ?_ _ hspan
    rintro x ⟨j, rfl⟩
    rw [dotF_comm]
    exact hdel j.val j.isLt
  have hzero : ∀ i, ((∑ k ∈ Finset.range n, x₁.getD k 0 • toF (vcol k)) -
      (∑ k ∈ Finset.range n, x₂.getD k 0 • toF (vcol k))) i = 0 := by
    intro i
    by_cases him : i < m
    · exact dotF_self_coord m _ hDz i him
    · rw [hdiff, Finset.sum_apply]
      refine Finset.sum_eq_zero ?_
      intro k hk
      rw [Finset.mem_range] at hk
      rw [Pi.smul_apply, smul_eq_mul, toF_eq_zero_of_le _ i (by rw [hvl k hk]; omega),
        mul_zero]
  have hfun : (∑ k ∈ Finset.range n, x₁.getD k 0 • toF (vcol k)) -
      (∑ k ∈ Finset.range n, x₂.getD k 0 • toF (vcol k)) = 0 := by
    funext i
    exact hzero i
  rw [Fintype.linearIndependent_iff] at hli
  have hg := hli (fun j : Fin n => x₁.getD j.val 0 - x₂.getD j.val 0) (by
    show ∑ j : Fin n, (x₁.getD j.val 0 - x₂.getD j.val 0) • toF (vcol j.val) = 0
    rw [Fin.sum_univ_eq_sum_range
      (fun k => (x₁.getD k 0 - x₂.getD k 0) • toF (vcol k)) n, ← hdiff, hfun])
  refine List.ext_getElem (by rw [h1l, h2l]) ?_
  intro i hi1 hi2
  have hin : i < n := by rw [← h1l]; exact hi1
  have hgi := hg ⟨i, hin⟩
  rw [sub_eq_zero] at hgi
  rw [← List.getD_eq_getElem x₁ 0 hi1, ← List.getD_eq_getElem x₂ 0 hi2]
  exact hgi

/-- Claim C9: on a full-rank square system (columns of the square matrix
linearly independent over the exact-rational model), `iteratedQR` succeeds
with rank `n`, and for every right-hand-side column, back-substitution
through the returned triangular factor and projected right-hand side
reproduces the unique least-squares solution: the residual of `A x` against
the column is orthogonal to every column of `A` (the normal equations, whose
solution for a full-rank square system is the exact solution), and any
vector satisfying the normal equations equals the back-substituted one. -/
theorem iteratedQR_full_rank_solves (A b : SparseMatrix)
    (hsq : A.numRows = A.numCols) (hn : 0 < A.numCols)
    (hshape : A.numRows = b.numRows)
    (hli : LinearIndependent ℚ (fun j : Fin A.numCols => toF (colDense A j.val))) :
    ∃ res, CXSparseAPI_iteratedQR A b = Except.ok res ∧ res.rank = A.numCols ∧
      ∀ jb, jb < b.numCols →
        IsLSQSolution A (colDense b jb) (backSub res.Rfac (res.pb.getD jb [])) ∧
        ∀ x, IsLSQSolution A (colDense b jb) x →
          x = backSub res.Rfac (res.pb.getD jb []) := by
  obtain ⟨hUlen, hRlen, hpiv, hrfac⟩ := gsPrefix_full A hli A.numCols (le_refl A.numCols)
  obtain ⟨hlen1, hnz1, hpw1, hPspan1, hUspan1⟩ := gsPrefix_inv A A.numCols
  have hmain : ∀ jb, jb < b.numCols →
      IsLSQSolution A (colDense b jb) (backSub (gsPrefix A A.numCols).2.2
        (((List.range b.numCols).map (fun j => (gsPrefix A A.numCols).1.map
          (fun u => dotProd (colDense b j) u / dotProd u u))).getD jb [])) ∧
      ∀ x, IsLSQSolution A (colDense b jb) x →
        x = backSub (gsPrefix A A.numCols).2.2
          (((List.range b.numCols).map (fun j => (gsPrefix A A.numCols).1.map
            (fun u => dotProd (colDense b j) u / dotProd u u))).getD jb []) := by
    intro jb hjb
    have hpbcol : ((List.range b.numCols).map (fun j => (gsPrefix A A.numCols).1.map
        (fun u => dotProd (colDense b j) u / dotProd u u))).getD jb [] =
        (gsPrefix A A.numCols).1.map (fun u => dotProd (colDense b jb) u / dotProd u u) := by
      rw [getD_map_lt (fun j => (gsPrefix A A.numCols).1.map
          (fun u => dotProd (colDense b j) u / dotProd u u)) (List.range b.numCols) jb
          (by rw [List.length_range]; exact hjb) [] 0,
        getD_range b.numCols jb hjb 0]
    rw [hpbcol]
    have hbcl : (colDense b jb).length = A.numRows := by
      rw [length_colDense]
      exact hshape.symm
    obtain ⟨hxlen, hxeq⟩ := backSub_entries A.numCols (gsPrefix A A.numCols).1 (colDense A)
      (gsPrefix A A.numCols).2.2
      ((gsPrefix A A.numCols).1.map (fun u => dotProd (colDense b jb) u / dotProd u u))
      hUlen hRlen hrfac
    have hpbe : ∀ i, i < A.numCols →
        ((gsPrefix A A.numCols).1.map
          (fun u => dotProd (colDense b jb) u / dotProd u u)).getD i 0 =
        dotProd (colDense b jb) ((gsPrefix A A.numCols).1.getD i []) /
          dotProd ((gsPrefix A A.numCols).1.getD i [])
            ((gsPrefix A A.numCols).1.getD i []) := by
      intro i hi
      rw [getD_map_lt (fun u => dotProd (colDense b jb) u / dotProd u u)
        (gsPrefix A A.numCols).1 i (by rw [hUlen]; exact hi) 0 []]
    have hBor := normal_eq_pivots A.numRows A.numCols (gsPrefix A A.numCols).1 (colDense A)
      (colDense b jb)
      ((gsPrefix A A.numCols).1.map (fun u => dotProd (colDense b jb) u / dotProd u u))
      (backSub (gsPrefix A A.numCols).2.2
        ((gsPrefix A A.numCols).1.map (fun u => dotProd (colDense b jb) u / dotProd u u)))
      hUlen hlen1 hnz1 hpw1 (gsPrefix_decomp A hli) hpbe hbcl hxeq
    have hCor : ∀ j, j < A.numCols → dotF A.numRows
        ((∑ k ∈ Finset.range A.numCols, (backSub (gsPrefix A A.numCols).2.2
          ((gsPrefix A A.numCols).1.map
            (fun u => dotProd (colDense b jb) u / dotProd u u))).getD k 0 •
          toF (colDense A k)) - toF (colDense b jb)) (toF (colDense A j)) = 0 := by
      intro j hj
      have hmem : toF (colDense A j) ∈
          Submodule.span ℚ (toFSet (gsPrefix A A.numCols).1) := by
        refine hPspan1 (colDense A j) ?_
        exact List.mem_map.mpr ⟨j, List.mem_range.mpr hj, rfl⟩
      rw [dotF_comm]
      refine dotF_eq_zero_of_mem_span A.numRows _ _ ?_ _ hmem
      rintro x ⟨u, hu, rfl⟩
      obtain ⟨idx, hidx, hue⟩ := List.mem_iff_getElem.mp hu
      have hidxn : idx < A.numCols := by rw [← hUlen]; exact hidx
      have hgu : u = (gsPrefix A A.numCols).1.getD idx [] := by
        rw [List.getD_eq_getElem (gsPrefix A A.numCols).1 [] hidx, hue]
      rw [dotF_comm, hgu]
      exact hBor idx hidxn
    have hlsq : IsLSQSolution A (colDense b jb) (backSub (gsPrefix A A.numCols).2.2
        ((gsPrefix A A.numCols).1.map
          (fun u => dotProd (colDense b jb) u / dotProd u u))) := by
      refine ⟨hxlen, ?_⟩
      intro j hj
      rw [toF_matVec, list_range_map_sum]
      exact hCor j hj
    refine ⟨hlsq, ?_⟩
    intro x hx
    obtain ⟨hxl, hxorth⟩ := hx
    refine lsq_unique_abstract A.numRows A.numCols (colDense A) (colDense b jb)
      (fun k _ => length_colDense A k) hli x _ hxl hxlen ?_ ?_
    · intro j hj
      have hor := hxorth j hj
      rw [toF_matVec, list_range_map_sum] at hor
      exact hor
    · intro j hj
      exact hCor j hj
  rw [CXSparseAPI_iteratedQR, if_neg (not_not_intro hshape), gsRun_eq_gsPrefix,
    if_neg (by rw [hUlen]; omega)]
  exact ⟨_, rfl, hUlen, hmain⟩

theorem iteratedQR_full_rank_solves_witness :
    ∃ res, CXSparseAPI_iteratedQR
        { values := [1, 1], rowIndex := [0, 1], colPointer := [0, 1, 2], numRows := 2, numCols := 2 }
        { values := [1, 2], rowIndex := [0, 1], colPointer := [0, 2], numRows := 2, numCols := 1 } = Except.ok res ∧ res.rank = 2 ∧
      ∀ jb, jb < 1 →
        IsLSQSolution { values := [1, 1], rowIndex := [0, 1], colPointer := [0, 1, 2], numRows := 2, numCols := 2 }
          (colDense { values := [1, 2], rowIndex := [0, 1], colPointer := [0, 2], numRows := 2, numCols := 1 } jb)
          (backSub res.Rfac (res.pb.getD jb [])) ∧
        ∀ x, IsLSQSolution { values := [1, 1], rowIndex := [0, 1], colPointer := [0, 1, 2], numRows := 2, numCols := 2 }
          (colDense { values := [1, 2], rowIndex := [0, 1], colPointer := [0, 2], numRows := 2, numCols := 1 } jb) x →
          x = backSub res.Rfac (res.pb.getD jb []) :=
  iteratedQR_full_rank_solves
    { values := [1, 1], rowIndex := [0, 1], colPointer := [0, 1, 2], numRows := 2, numCols := 2 }
    { values := [1, 2], rowIndex := [0, 1], colPointer := [0, 2], numRows := 2, numCols := 1 }
    rfl (by decide) rfl
    (by
      show LinearIndependent ℚ (fun j : Fin 2 => toF (colDense { values := [1, 1], rowIndex := [0, 1], colPointer := [0, 1, 2], numRows := 2, numCols := 2 } j.val))
      rw [Fintype.linearIndependent_iff]
      intro g hg
      simp only [Fin.sum_univ_two] at hg
      have h0 := congrFun hg 0
      have h1 := congrFun hg 1
      simp only [Pi.add_apply, Pi.smul_apply, smul_eq_mul, Pi.zero_apply] at h0 h1
      rw [show toF (colDense { values := [1, 1], rowIndex := [0, 1], colPointer := [0, 1, 2], numRows := 2, numCols := 2 } (0 : Fin 2).val) 0 = 1 from by decide,
        show toF (colDense { values := [1, 1], rowIndex := [0, 1], colPointer := [0, 1, 2], numRows := 2, numCols := 2 } (1 : Fin 2).val) 0 = 0 from by decide,
        mul_one, mul_zero, add_zero] at h0
      rw [show toF (colDense { values := [1, 1], rowIndex := [0, 1], colPointer := [0, 1, 2], numRows := 2, numCols := 2 } (0 : Fin 2).val) 1 = 0 from by decide,
        show toF (colDense { values := [1, 1], rowIndex := [0, 1], colPointer := [0, 1, 2], numRows := 2, numCols := 2 } (1 : Fin 2).val) 1 = 1 from by decide,
        mul_zero, mul_one, zero_add] at h1
      intro i
      fin_cases i
      · exact h0
      · exact h1)

example : b_insertionsort [3, 1, 2] 1 3 = [1, 2, 3] := by decide
example : b_insertionsort [9, 3, 1, 2, 7] 2 4 = [9, 1, 2, 3, 7] := by decide
example : insertionsort [1, 2] 1 2 [10, 5] [0, 0] = [2, 1] := by decide
example : sortL (fun a b => decide (a < b)) [3, 1, 2] = [1, 2, 3] := by decide
